import Mathlib

/-! The package `crypto/aes_gcm` of hanko: a key-rotating AES-GCM wrapper.

A shallow embedding of `crypto/aes_gcm/aes_gcm.go` together with the parts of the Go
standard library it calls (`encoding/base64`, `crypto/aes`, `crypto/cipher`), followed by the
properties of `NewAESGCM`, `Encrypt` and `Decrypt`.

Conventions
* a Go `byte` is a `Fin 256`; a `[]byte` and a Go `string` are lists of bytes;
* machine words inside AES and GHASH are natural numbers, reduced `% 2 ^ w` where the Go
  code truncates;
* a Go call ends in one of three ways: it returns a value with a nil error, it returns a
  non-nil error, or it panics (`Result`);
* the bytes delivered by `rand.Reader` are an explicit argument of `Encrypt`.

The standard library is embedded at the level of its documented behaviour: the base64 decoder
follows `decodeQuantum` (it skips `\r` and `\n` and is not strict about trailing bits), AES
follows `expandKeyGo` and `encryptBlockGo`, GCM follows `Seal`, `Open`, `counterCrypt` and
`auth` with the field product written bit by bit. The section "Known answers" checks the
embedding against FIPS-197, the GCM specification and RFC 4648.
-/

set_option linter.dupNamespace false

/-- One Go `byte`. -/
abbrev Byte := Fin 256

/-- The Go `error` values this package can hand to its caller. -/
inductive Error where
  /-- An `errors.New(msg)` value. -/
  | errorString (msg : String)
  /-- A `base64.CorruptInputError(offset)`. -/
  | CorruptInputError (offset : Nat)
  /-- An `aes.KeySizeError(k)`. -/
  | KeySizeError (k : Nat)
  deriving DecidableEq, Repr

/-- The `Error()` method: the message of an error value. -/
def Error.Error : Error → String
  | .errorString msg => msg
  | .CorruptInputError offset => "illegal base64 data at input byte " ++ toString offset
  | .KeySizeError k => "crypto/aes: invalid key size " ++ toString k

deriving instance DecidableEq for Except

/-- The three ways a Go call can end. -/
inductive Result (α : Type) where
  /-- Normal return with a nil error. -/
  | ok (v : α)
  /-- Normal return with a non-nil error (the value result is the zero value). -/
  | err (e : Error)
  /-- The call panicked with this message. -/
  | panic (msg : String)
  deriving DecidableEq, Repr

/-! ## `encoding/base64`, `URLEncoding` (padded, non-strict) -/

namespace base64

/-- The URL-safe alphabet `encodeURL`. -/
def encodeURL : List Byte :=
  "ABCDEFGHIJKLMNOPQRSTUVWXYZabcdefghijklmnopqrstuvwxyz0123456789-_".toList.map
    (fun c => Fin.ofNat c.toNat)

/-- The padding character `StdPadding`, which is `=`. -/
def padChar : Byte := 61

/-- The lookup `enc.encode[v & 0x3F]`. -/
def encode (v : Nat) : Byte := encodeURL.getD (v % 64) 0

/-- The table `enc.decodeMap`: the index of `c` in the alphabet, `0xFF` for any other byte. -/
def decodeMap (c : Byte) : Nat :=
  let i := encodeURL.indexOf c
  if i < 64 then i else 0xFF

/-- The method `Encoding.EncodeToString` of `URLEncoding`: three bytes become four characters,
a final group of one or two bytes is padded with `=`. -/
def EncodeToString : List Byte → List Byte
  | [] => []
  | [a] =>
    let val := a.val <<< 16
    [encode (val >>> 18), encode (val >>> 12), padChar, padChar]
  | [a, b] =>
    let val := a.val <<< 16 ||| b.val <<< 8
    [encode (val >>> 18), encode (val >>> 12), encode (val >>> 6), padChar]
  | a :: b :: c :: rest =>
    let val := a.val <<< 16 ||| b.val <<< 8 ||| c.val
    encode (val >>> 18) :: encode (val >>> 12) :: encode (val >>> 6) :: encode val ::
      EncodeToString rest

/-- Whether a byte is `\n` or `\r`; the decoder skips these. -/
def isNewline (c : Byte) : Bool := c = 10 || c = 13

/-- The loop `for si < len(src) && (src[si] == '\n' || src[si] == '\r') { si++ }`; returns the
unread input and the new `si`. -/
def skipNewlines : List Byte → Nat → List Byte × Nat
  | [], si => ([], si)
  | c :: rest, si => if isNewline c then skipNewlines rest (si + 1) else (c :: rest, si)

/-- The 24-bit value `dbuf[0]<<18 | dbuf[1]<<12 | dbuf[2]<<6 | dbuf[3]` of a quantum; missing
entries of `dbuf` are zero. -/
def quantumVal (dbuf : List Nat) : Nat :=
  dbuf.getD 0 0 <<< 18 ||| dbuf.getD 1 0 <<< 12 ||| dbuf.getD 2 0 <<< 6 ||| dbuf.getD 3 0

/-- The first `dlen - 1` of the three bytes `byte(val>>16), byte(val>>8), byte(val)`. -/
def quantumBytes (dbuf : List Nat) (dlen : Nat) : List Byte :=
  let val := quantumVal dbuf
  [Fin.ofNat (val >>> 16), Fin.ofNat (val >>> 8), Fin.ofNat val].take (dlen - 1)

/-- The end of `decodeQuantum` once a padding character has been read with `j` characters
already in `dbuf`; `rest` is the input after that `=`, whose index is `si - 1`. -/
def decodePadding (dbuf : List Nat) (rest : List Byte) (si : Nat) : Except Error (List Byte) :=
  let j := dbuf.length
  if j < 2 then .error (.CorruptInputError (si - 1))
  else
    let second : Except Error (List Byte × Nat) :=
      if j = 2 then
        match skipNewlines rest si with
        | ([], si) => .error (.CorruptInputError si)
        | (c :: rest, si) =>
          if c ≠ padChar then .error (.CorruptInputError (si - 1)) else .ok (rest, si + 1)
      else .ok (rest, si)
    match second with
    | .error e => .error e
    | .ok (rest, si) =>
      match skipNewlines rest si with
      | ([], _) => .ok (quantumBytes dbuf j)
      | (_ :: _, si) => .error (.CorruptInputError si)

/-- The method `Encoding.Decode` for `URLEncoding`: the repetition of `decodeQuantum` over
`src`. `si` is the index of the next input byte and `dbuf` holds the characters of the
current quantum decoded so far (`j = dbuf.length`). -/
def decodeLoop : List Byte → Nat → List Nat → Except Error (List Byte)
  | [], si, dbuf =>
    if dbuf.length = 0 then .ok [] else .error (.CorruptInputError (si - dbuf.length))
  | c :: rest, si, dbuf =>
    let out := decodeMap c
    if out ≠ 0xFF then
      if dbuf.length = 3 then
        match decodeLoop rest (si + 1) [] with
        | .ok tail => .ok (quantumBytes (dbuf ++ [out]) 4 ++ tail)
        | .error e => .error e
      else decodeLoop rest (si + 1) (dbuf ++ [out])
    else if isNewline c then decodeLoop rest (si + 1) dbuf
    else if c ≠ padChar then .error (.CorruptInputError si)
    else decodePadding dbuf rest (si + 1)

/-- The method `Encoding.DecodeString` of `URLEncoding`; on a non-nil error the caller in this
package drops the partial output, so only the error is kept. -/
def DecodeString (s : List Byte) : Except Error (List Byte) := decodeLoop s 0 []

end base64

/-! ## `crypto/aes` -/

namespace aes

/-- The FIPS-197 S-box `sbox0`. -/
def sbox0 : List Nat := [
  0x63, 0x7c, 0x77, 0x7b, 0xf2, 0x6b, 0x6f, 0xc5, 0x30, 0x01, 0x67, 0x2b, 0xfe, 0xd7, 0xab, 0x76,
  0xca, 0x82, 0xc9, 0x7d, 0xfa, 0x59, 0x47, 0xf0, 0xad, 0xd4, 0xa2, 0xaf, 0x9c, 0xa4, 0x72, 0xc0,
  0xb7, 0xfd, 0x93, 0x26, 0x36, 0x3f, 0xf7, 0xcc, 0x34, 0xa5, 0xe5, 0xf1, 0x71, 0xd8, 0x31, 0x15,
  0x04, 0xc7, 0x23, 0xc3, 0x18, 0x96, 0x05, 0x9a, 0x07, 0x12, 0x80, 0xe2, 0xeb, 0x27, 0xb2, 0x75,
  0x09, 0x83, 0x2c, 0x1a, 0x1b, 0x6e, 0x5a, 0xa0, 0x52, 0x3b, 0xd6, 0xb3, 0x29, 0xe3, 0x2f, 0x84,
  0x53, 0xd1, 0x00, 0xed, 0x20, 0xfc, 0xb1, 0x5b, 0x6a, 0xcb, 0xbe, 0x39, 0x4a, 0x4c, 0x58, 0xcf,
  0xd0, 0xef, 0xaa, 0xfb, 0x43, 0x4d, 0x33, 0x85, 0x45, 0xf9, 0x02, 0x7f, 0x50, 0x3c, 0x9f, 0xa8,
  0x51, 0xa3, 0x40, 0x8f, 0x92, 0x9d, 0x38, 0xf5, 0xbc, 0xb6, 0xda, 0x21, 0x10, 0xff, 0xf3, 0xd2,
  0xcd, 0x0c, 0x13, 0xec, 0x5f, 0x97, 0x44, 0x17, 0xc4, 0xa7, 0x7e, 0x3d, 0x64, 0x5d, 0x19, 0x73,
  0x60, 0x81, 0x4f, 0xdc, 0x22, 0x2a, 0x90, 0x88, 0x46, 0xee, 0xb8, 0x14, 0xde, 0x5e, 0x0b, 0xdb,
  0xe0, 0x32, 0x3a, 0x0a, 0x49, 0x06, 0x24, 0x5c, 0xc2, 0xd3, 0xac, 0x62, 0x91, 0x95, 0xe4, 0x79,
  0xe7, 0xc8, 0x37, 0x6d, 0x8d, 0xd5, 0x4e, 0xa9, 0x6c, 0x56, 0xf4, 0xea, 0x65, 0x7a, 0xae, 0x08,
  0xba, 0x78, 0x25, 0x2e, 0x1c, 0xa6, 0xb4, 0xc6, 0xe8, 0xdd, 0x74, 0x1f, 0x4b, 0xbd, 0x8b, 0x8a,
  0x70, 0x3e, 0xb5, 0x66, 0x48, 0x03, 0xf6, 0x0e, 0x61, 0x35, 0x57, 0xb9, 0x86, 0xc1, 0x1d, 0x9e,
  0xe1, 0xf8, 0x98, 0x11, 0x69, 0xd9, 0x8e, 0x94, 0x9b, 0x1e, 0x87, 0xe9, 0xce, 0x55, 0x28, 0xdf,
  0x8c, 0xa1, 0x89, 0x0d, 0xbf, 0xe6, 0x42, 0x68, 0x41, 0x99, 0x2d, 0x0f, 0xb0, 0x54, 0xbb, 0x16]

/-- The table `powx`: powers of `x` in GF(2^8), the round constants. -/
def powx : List Nat :=
  [0x01, 0x02, 0x04, 0x08, 0x10, 0x20, 0x40, 0x80, 0x1b, 0x36, 0x6c, 0xd8, 0xab, 0x4d, 0x9a, 0x2f]

/-- The lookup `sbox0[uint8(b)]`. -/
def sub (b : Nat) : Nat := sbox0.getD (b % 256) 0

/-- Multiplication by `x` in GF(2^8) modulo `x^8 + x^4 + x^3 + x + 1`. -/
def mul2 (b : Nat) : Nat := if b < 128 then 2 * b else (2 * b) % 256 ^^^ 0x1b

/-- The 32-bit word with bytes `a b c d`, most significant first. -/
def word (a b c d : Nat) : Nat := a <<< 24 ||| b <<< 16 ||| c <<< 8 ||| d

/-- The function `subw`: the S-box applied to each byte of a word. -/
def subw (w : Nat) : Nat := word (sub (w >>> 24)) (sub (w >>> 16)) (sub (w >>> 8)) (sub w)

/-- The function `rotw`: a word rotated left by 8 bits. -/
def rotw (w : Nat) : Nat := (w <<< 8 ||| w >>> 24) % 2 ^ 32

/-- The table `te0`: entry `x` is the MixColumns column of `sbox0[x]`. -/
def te0 (x : Nat) : Nat :=
  let s := sub x
  let s2 := mul2 s
  word s2 s s (s2 ^^^ s)

/-- The table `te1`, which is `te0` rotated right by one byte. -/
def te1 (x : Nat) : Nat :=
  let s := sub x
  let s2 := mul2 s
  word (s2 ^^^ s) s2 s s

/-- The table `te2`, which is `te0` rotated right by two bytes. -/
def te2 (x : Nat) : Nat :=
  let s := sub x
  let s2 := mul2 s
  word s (s2 ^^^ s) s2 s

/-- The table `te3`, which is `te0` rotated right by three bytes. -/
def te3 (x : Nat) : Nat :=
  let s := sub x
  let s2 := mul2 s
  word s s (s2 ^^^ s) s2

/-- The big-endian number spelled by a byte sequence (`binary.BigEndian`). -/
def beUint (bs : List Byte) : Nat := bs.foldl (fun acc b => acc * 256 + b.val) 0

/-- The first loop of `expandKeyGo`: the key read as `n` big-endian 32-bit words. -/
def keyWords : Nat → List Byte → List Nat
  | 0, _ => []
  | n + 1, key => beUint (key.take 4) :: keyWords n (key.drop 4)

/-- The second loop of `expandKeyGo`: `count` further words are appended to `enc`, the next
one having index `i`. -/
def expandLoop (nk : Nat) : Nat → Nat → List Nat → List Nat
  | 0, _, enc => enc
  | count + 1, i, enc =>
    let t := enc.getD (i - 1) 0
    let t :=
      if i % nk = 0 then subw (rotw t) ^^^ (powx.getD (i / nk - 1) 0 <<< 24)
      else if nk > 6 ∧ i % nk = 4 then subw t
      else t
    expandLoop nk count (i + 1) (enc ++ [enc.getD (i - nk) 0 ^^^ t])

/-- The encryption half of `expandKeyGo`: the key schedule of `len(key) + 28` words. -/
def expandKeyGo (key : List Byte) : List Nat :=
  let nk := key.length / 4
  expandLoop nk (key.length + 28 - nk) nk (keyWords nk key)

/-- The middle rounds of `encryptBlockGo`: `r` rounds, `xk` starting at the round key of the
next round. -/
def roundLoop : Nat → List Nat → Nat × Nat × Nat × Nat → Nat × Nat × Nat × Nat
  | 0, _, s => s
  | r + 1, xk, (s0, s1, s2, s3) =>
    let t0 := xk.getD 0 0 ^^^ te0 (s0 >>> 24) ^^^ te1 (s1 >>> 16) ^^^ te2 (s2 >>> 8) ^^^ te3 s3
    let t1 := xk.getD 1 0 ^^^ te0 (s1 >>> 24) ^^^ te1 (s2 >>> 16) ^^^ te2 (s3 >>> 8) ^^^ te3 s0
    let t2 := xk.getD 2 0 ^^^ te0 (s2 >>> 24) ^^^ te1 (s3 >>> 16) ^^^ te2 (s0 >>> 8) ^^^ te3 s1
    let t3 := xk.getD 3 0 ^^^ te0 (s3 >>> 24) ^^^ te1 (s0 >>> 16) ^^^ te2 (s1 >>> 8) ^^^ te3 s2
    roundLoop r (xk.drop 4) (t0, t1, t2, t3)

/-- The function `encryptBlockGo`: one 128-bit block, given and returned as a big-endian
number, encrypted under the key schedule `xk`. -/
def encryptBlockGo (xk : List Nat) (src : Nat) : Nat :=
  let s0 := (src >>> 96) % 2 ^ 32 ^^^ xk.getD 0 0
  let s1 := (src >>> 64) % 2 ^ 32 ^^^ xk.getD 1 0
  let s2 := (src >>> 32) % 2 ^ 32 ^^^ xk.getD 2 0
  let s3 := src % 2 ^ 32 ^^^ xk.getD 3 0
  let nr := xk.length / 4 - 2
  let (t0, t1, t2, t3) := roundLoop nr (xk.drop 4) (s0, s1, s2, s3)
  let k := xk.drop (4 + 4 * nr)
  let s0 := word (sub (t0 >>> 24)) (sub (t1 >>> 16)) (sub (t2 >>> 8)) (sub t3) ^^^ k.getD 0 0
  let s1 := word (sub (t1 >>> 24)) (sub (t2 >>> 16)) (sub (t3 >>> 8)) (sub t0) ^^^ k.getD 1 0
  let s2 := word (sub (t2 >>> 24)) (sub (t3 >>> 16)) (sub (t0 >>> 8)) (sub t1) ^^^ k.getD 2 0
  let s3 := word (sub (t3 >>> 24)) (sub (t0 >>> 16)) (sub (t1 >>> 8)) (sub t2) ^^^ k.getD 3 0
  s0 <<< 96 ||| s1 <<< 64 ||| s2 <<< 32 ||| s3

/-- The value behind a `cipher.Block` made by this package: the encryption key schedule. -/
structure Block where
  /-- The expanded encryption key `enc`. -/
  enc : List Nat
  deriving DecidableEq, Repr

/-- The constant `aes.BlockSize`. -/
def BlockSize : Nat := 16

/-- The constructor `aes.NewCipher`: keys of 16, 24 or 32 bytes are expanded, any other
length is a `KeySizeError`. -/
def NewCipher (key : List Byte) : Except Error Block :=
  let k := key.length
  if k = 16 ∨ k = 24 ∨ k = 32 then .ok ⟨expandKeyGo key⟩ else .error (.KeySizeError k)

/-- The method `Block.Encrypt` on one 16-byte block, as a big-endian number. -/
def Block.Encrypt (c : Block) (src : Nat) : Nat := encryptBlockGo c.enc src

/-- Every word of a list is a 32-bit word. -/
def Words32 (l : List Nat) : Prop := ∀ w ∈ l, w < 2 ^ 32

/-- The 256-bit key `00 01 ... 1f` of FIPS-197, appendix C.3. -/
def fipsKey : List Byte := (List.range 32).map Fin.ofNat

end aes

/-! ## `crypto/cipher`: Galois/Counter Mode -/

namespace cipher

/-- The constant `gcmBlockSize`. -/
def gcmBlockSize : Nat := 16

/-- The constant `gcmTagSize`. -/
def gcmTagSize : Nat := 16

/-- The constant `gcmStandardNonceSize`. -/
def gcmStandardNonceSize : Nat := 12

/-- The error `errOpen`. -/
def errOpen : Error := .errorString "cipher: message authentication failed"

/-- The state of a `gcm` value built by `NewGCM`: the block cipher; the nonce size is
`gcmStandardNonceSize` and the tag size `gcmTagSize`. -/
structure gcm where
  /-- The underlying AES block cipher. -/
  cipher : aes.Block
  deriving DecidableEq, Repr

/-- The constructor `cipher.NewGCM`: only 128-bit block ciphers are accepted. -/
def NewGCM (block : aes.Block) : Except Error gcm :=
  if aes.BlockSize ≠ gcmBlockSize then
    .error (.errorString "cipher: NewGCM requires 128-bit block cipher")
  else .ok ⟨block⟩

/-- The method `NonceSize`. -/
def gcm.NonceSize (_g : gcm) : Nat := gcmStandardNonceSize

/-- The 16 bytes of a 128-bit number, most significant first. -/
def putUint128 (x : Nat) : List Byte :=
  [Fin.ofNat (x >>> 120), Fin.ofNat (x >>> 112), Fin.ofNat (x >>> 104), Fin.ofNat (x >>> 96),
   Fin.ofNat (x >>> 88), Fin.ofNat (x >>> 80), Fin.ofNat (x >>> 72), Fin.ofNat (x >>> 64),
   Fin.ofNat (x >>> 56), Fin.ofNat (x >>> 48), Fin.ofNat (x >>> 40), Fin.ofNat (x >>> 32),
   Fin.ofNat (x >>> 24), Fin.ofNat (x >>> 16), Fin.ofNat (x >>> 8), Fin.ofNat x]

/-- A block of at most 16 bytes read as a 128-bit big-endian number, zero-padded on the
right. -/
def blockOf (bs : List Byte) : Nat := aes.beUint bs <<< (8 * (16 - bs.length))

/-- The reduction constant of GF(2^128) in GCM bit order: `0xe1` followed by 120 zero bits. -/
def gcmR : Nat := 0xe1 <<< 120

/-- The bit-serial product in GF(2^128): `n` further bits of `x`, from bit `n - 1` down to
bit 0, with accumulator `z` and the running multiple `v`. -/
def mulLoop : Nat → Nat → Nat → Nat → Nat
  | 0, _, z, _ => z
  | n + 1, x, z, v =>
    let z := if x.testBit n then z ^^^ v else z
    let v := if v % 2 = 1 then v >>> 1 ^^^ gcmR else v >>> 1
    mulLoop n x z v

/-- The product of two field elements of GF(2^128) as GCM defines it (`gcm.mul`). -/
def gcmMul (x y : Nat) : Nat := mulLoop 128 x 0 y

/-- The method `gcm.updateBlocks` with the padding of `gcm.update`: `n` blocks of `data` are
folded into `y`, each as `y = (y xor block) * h`. -/
def updateBlocks (h : Nat) : Nat → Nat → List Byte → Nat
  | 0, y, _ => y
  | n + 1, y, data => updateBlocks h n (gcmMul (y ^^^ blockOf (data.take 16)) h) (data.drop 16)

/-- The method `gcm.update`: all of `data`, the last block zero-padded. -/
def update (h : Nat) (y : Nat) (data : List Byte) : Nat :=
  updateBlocks h ((data.length + 15) / 16) y data

/-- The method `gcm.auth`: the GHASH of the additional data and the ciphertext with their
64-bit bit lengths, masked with `tagMask`; the 16-byte tag. -/
def gcm.auth (g : gcm) (ciphertext additionalData : List Byte) (tagMask : Nat) : List Byte :=
  let h := g.cipher.Encrypt 0
  let y := update h 0 additionalData
  let y := update h y ciphertext
  let lens := (additionalData.length * 8 % 2 ^ 64) <<< 64 ||| ciphertext.length * 8 % 2 ^ 64
  let y := gcmMul (y ^^^ lens) h
  putUint128 (y ^^^ tagMask)

/-- The method `gcm.deriveCounter` for a nonce of the standard size: the nonce followed by
the 32-bit counter value 1. -/
def deriveCounter (nonce : List Byte) : Nat := aes.beUint nonce <<< 32 ||| 1

/-- The function `gcmInc32`: the last four bytes of the counter block are incremented as a
big-endian 32-bit number, wrapping around. -/
def gcmInc32 (counter : Nat) : Nat := counter >>> 32 <<< 32 ||| (counter % 2 ^ 32 + 1) % 2 ^ 32

/-- The function `subtle.XORBytes`: the byte-wise xor, as long as the shorter argument. -/
def XORBytes (x y : List Byte) : List Byte := List.zipWith (fun a b => a ^^^ b) x y

/-- The key stream of `n` successive counter blocks starting at `counter`. -/
def keyStream (c : aes.Block) : Nat → Nat → List Byte
  | 0, _ => []
  | n + 1, counter => putUint128 (c.Encrypt counter) ++ keyStream c n (gcmInc32 counter)

/-- The method `gcm.counterCrypt`: `inp` xored with the key stream, one counter block for
each started 16-byte block of `inp`. -/
def gcm.counterCrypt (g : gcm) (inp : List Byte) (counter : Nat) : List Byte :=
  XORBytes inp (keyStream g.cipher ((inp.length + 15) / 16) counter)

/-- The largest plaintext `Seal` accepts: `((1 << 32) - 2) * BlockSize` bytes. -/
def maxPlaintext : Nat := (2 ^ 32 - 2) * gcmBlockSize

/-- The method `gcm.Seal(dst, nonce, plaintext, data)`. Its two guards come first:
`if len(nonce) != g.nonceSize { panic(...) }` and
`if uint64(len(plaintext)) > ((1<<32)-2)*uint64(g.cipher.BlockSize()) { panic(...) }`, the
second because the counter has 32 bits. Otherwise ciphertext and tag are appended to `dst`. -/
def gcm.Seal (g : gcm) (dst nonce plaintext data : List Byte) : Result (List Byte) :=
  if nonce.length ≠ g.NonceSize then
    .panic "crypto/cipher: incorrect nonce length given to GCM"
  else if plaintext.length > maxPlaintext then
    .panic "crypto/cipher: message too large for GCM"
  else
    let counter := deriveCounter nonce
    let tagMask := g.cipher.Encrypt counter
    let out := g.counterCrypt plaintext (gcmInc32 counter)
    .ok (dst ++ out ++ g.auth out data tagMask)

/-- The method `gcm.Open(dst, nonce, ciphertext, data)`: panics on a nonce of the wrong
length; fails with `errOpen` when the input is shorter than a tag, longer than
`maxPlaintext` plus a tag, or when `subtle.ConstantTimeCompare` finds its tag different from
the expected one; otherwise appends the plaintext to `dst`. -/
def gcm.Open (g : gcm) (dst nonce ciphertext data : List Byte) : Result (List Byte) :=
  if nonce.length ≠ g.NonceSize then
    .panic "crypto/cipher: incorrect nonce length given to GCM"
  else if ciphertext.length < gcmTagSize then .err errOpen
  else if ciphertext.length > maxPlaintext + gcmTagSize then .err errOpen
  else
    let tag := ciphertext.drop (ciphertext.length - gcmTagSize)
    let ciphertext := ciphertext.take (ciphertext.length - gcmTagSize)
    let counter := deriveCounter nonce
    let tagMask := g.cipher.Encrypt counter
    let expectedTag := g.auth ciphertext data tagMask
    if expectedTag ≠ tag then .err errOpen
    else .ok (dst ++ g.counterCrypt ciphertext (gcmInc32 counter))

/-- Multiplication by the field element `h` sends no 128-bit value other than 0 to 0. -/
def NoZeroDivisor (h : Nat) : Prop := ∀ x, x < 2 ^ 128 → gcmMul x h = 0 → x = 0

/-- Multiplication by `x` in GF(2^128), the update of `v` in `mulLoop`. -/
def mulX (v : Nat) : Nat := if v % 2 = 1 then v >>> 1 ^^^ gcmR else v >>> 1

/-- The field element `x ^ k`: `mulX` applied `k` times to the unit `2 ^ 127`. -/
def pw (k : Nat) : Nat := mulX^[k] (2 ^ 127)

/-- The power `a ^ e` in GF(2^128) by repeated squaring, for `e < 2 ^ fuel`. -/
def gpow (a : Nat) : Nat → Nat → Nat
  | 0, _ => 2 ^ 127
  | fuel + 1, e =>
    let h := gpow a fuel (e / 2)
    let s := gcmMul h h
    if e % 2 = 1 then gcmMul s a else s

/-- The number of non-zero elements of GF(2^128). -/
def fieldOrder : Nat := 340282366920938463463374607431768211455

/-- Modular exponentiation by repeated squaring: `a ^ e % m` for `e < 2 ^ fuel`. -/
def powMod (a m : Nat) : Nat → Nat → Nat
  | 0, _ => 1 % m
  | fuel + 1, e =>
    let h := powMod a m fuel (e / 2)
    let s := h * h % m
    if e % 2 = 1 then s * a % m else s

/-- The key of test cases 15 and 16 of the GCM specification (McGrew and Viega). -/
def gcmTestKey : List Byte :=
  [0xfe, 0xff, 0xe9, 0x92, 0x86, 0x65, 0x73, 0x1c, 0x6d, 0x6a, 0x8f, 0x94, 0x67, 0x30, 0x83, 0x08,
   0xfe, 0xff, 0xe9, 0x92, 0x86, 0x65, 0x73, 0x1c, 0x6d, 0x6a, 0x8f, 0x94, 0x67, 0x30, 0x83, 0x08]

/-- The nonce `cafebabefacedbaddecaf888` of those test cases. -/
def gcmTestNonce : List Byte :=
  [0xca, 0xfe, 0xba, 0xbe, 0xfa, 0xce, 0xdb, 0xad, 0xde, 0xca, 0xf8, 0x88]

/-- The 60-byte plaintext of test case 16. -/
def gcmTestPlain : List Byte :=
  [0xd9, 0x31, 0x32, 0x25, 0xf8, 0x84, 0x06, 0xe5, 0xa5, 0x59, 0x09, 0xc5, 0xaf, 0xf5, 0x26, 0x9a,
   0x86, 0xa7, 0xa9, 0x53, 0x15, 0x34, 0xf7, 0xda, 0x2e, 0x4c, 0x30, 0x3d, 0x8a, 0x31, 0x8a, 0x72,
   0x1c, 0x3c, 0x0c, 0x95, 0x95, 0x68, 0x09, 0x53, 0x2f, 0xcf, 0x0e, 0x24, 0x49, 0xa6, 0xb5, 0x25,
   0xb1, 0x6a, 0xed, 0xf5, 0xaa, 0x0d, 0xe6, 0x57, 0xba, 0x63, 0x7b, 0x39]

/-- The 20 bytes of additional data of test case 16. -/
def gcmTestData : List Byte :=
  [0xfe, 0xed, 0xfa, 0xce, 0xde, 0xad, 0xbe, 0xef, 0xfe, 0xed, 0xfa, 0xce, 0xde, 0xad, 0xbe, 0xef,
   0xab, 0xad, 0xda, 0xd2]

/-- The ciphertext and tag of test case 16. -/
def gcmTestSealed : List Byte :=
  [0x52, 0x2d, 0xc1, 0xf0, 0x99, 0x56, 0x7d, 0x07, 0xf4, 0x7f, 0x37, 0xa3, 0x2a, 0x84, 0x42, 0x7d,
   0x64, 0x3a, 0x8c, 0xdc, 0xbf, 0xe5, 0xc0, 0xc9, 0x75, 0x98, 0xa2, 0xbd, 0x25, 0x55, 0xd1, 0xaa,
   0x8c, 0xb0, 0x8e, 0x48, 0x59, 0x0d, 0xbb, 0x3d, 0xa7, 0xb0, 0x8b, 0x10, 0x56, 0x82, 0x88, 0x38,
   0xc5, 0xf6, 0x1e, 0x63, 0x93, 0xba, 0x7a, 0x0a, 0xbc, 0xc9, 0xf6, 0x62,
   0x76, 0xfc, 0x6e, 0xce, 0x0f, 0x4e, 0x17, 0x68, 0xcd, 0xdf, 0x88, 0x53, 0xbb, 0x2d, 0x55, 0x1b]

/-- What `Seal` appends to `dst` for a nonce of 12 bytes: the ciphertext followed by the tag. -/
def sealed (g : gcm) (nonce plaintext : List Byte) : List Byte :=
  g.counterCrypt plaintext (gcmInc32 (deriveCounter nonce)) ++
    g.auth (g.counterCrypt plaintext (gcmInc32 (deriveCounter nonce))) []
      (g.cipher.Encrypt (deriveCounter nonce))

end cipher

/-! ## `crypto/aes_gcm/aes_gcm.go` -/

namespace aes_gcm

/-- A fixed-size key `[32]byte`. -/
abbrev Key32 := { k : List Byte // k.length = 32 }

/-- The struct `AESGCM`: the ordered key list, primary key first. -/
structure AESGCM where
  /-- The field `keys [][32]byte`. -/
  keys : List Key32
  deriving DecidableEq

/-- The function `convertKey`: `copy(res[:], key[:32])`. Slicing a string shorter than 32
bytes panics. -/
def convertKey (key : List Byte) : Result Key32 :=
  if h : 32 ≤ key.length then
    .ok ⟨key.take 32, by rw [List.length_take]; omega⟩
  else
    .panic ("runtime error: slice bounds out of range [:32] with length " ++ toString key.length)

/-- The loop `for i, v := range keys` of `NewAESGCM`, entered at index `i` with the keys
converted so far in `fixedKeys`. -/
def newLoop : List (List Byte) → Nat → List Key32 → Result (List Key32)
  | [], _, fixedKeys => .ok fixedKeys
  | v :: rest, i, fixedKeys =>
    if v.length ≠ 32 then
      .err (.errorString ("Key Nr. " ++ toString i ++ " has the wrong length. Is " ++
        toString v.length ++ " but needs to be 32."))
    else
      match convertKey v with
      | .ok k => newLoop rest (i + 1) (fixedKeys ++ [k])
      | .err e => .err e
      | .panic msg => .panic msg

/-- The `cipher.AEAD` that `Encrypt` and `decrypt` build from a key: `aes.NewCipher` followed
by `cipher.NewGCM`, neither of which fails on 32 bytes. -/
def gcmOf (key : Key32) : cipher.gcm := ⟨⟨aes.expandKeyGo key.val⟩⟩

/-- The hash subkey of a key: the encryption of the all-zero block, by which GHASH
multiplies. -/
def hashSubkey (key : Key32) : Nat := (gcmOf key).cipher.Encrypt 0

/-- The constructor `NewAESGCM`: checks the keys and builds the manager. -/
def NewAESGCM (keys : List (List Byte)) : Result AESGCM :=
  if keys.length < 1 then
    .err (.errorString "At least one encryption key must be provided.")
  else
    match newLoop keys 0 [] with
    | .ok fixedKeys => .ok ⟨fixedKeys⟩
    | .err e => .err e
    | .panic msg => .panic msg

/-- The method `Encrypt`. `randRead` is the outcome of `io.ReadFull(rand.Reader, nonce)`:
an error, or the bytes that filled the nonce buffer of `gcm.NonceSize()` bytes. -/
def Encrypt (a : AESGCM) (plaintext : List Byte) (randRead : Except Error (List Byte)) :
    Result (List Byte) :=
  match a.keys with
  | [] => .panic "runtime error: index out of range [0] with length 0"
  | key :: _ =>
    match aes.NewCipher key.val with
    | .error e => .err e
    | .ok block =>
      match cipher.NewGCM block with
      | .error e => .err e
      | .ok gcm =>
        match randRead with
        | .error e => .err e
        | .ok nonce =>
          match gcm.Seal nonce nonce plaintext [] with
          | .ok ciphertext => .ok (base64.EncodeToString ciphertext)
          | .err e => .err e
          | .panic msg => .panic msg

/-- The method `decrypt`: one attempt with one key. -/
def decrypt (_a : AESGCM) (ciphertext : List Byte) (key : Key32) : Result (List Byte) :=
  match base64.DecodeString ciphertext with
  | .error e => .err e
  | .ok raw =>
    match aes.NewCipher key.val with
    | .error e => .err e
    | .ok block =>
      match cipher.NewGCM block with
      | .error e => .err e
      | .ok gcm =>
        if raw.length < gcm.NonceSize then .err (.errorString "malformed ciphertext")
        else gcm.Open [] (raw.take gcm.NonceSize) (raw.drop gcm.NonceSize) []

/-- The loop of `Decrypt` over the remaining keys; `err` is the named result `err` as the
previous attempts left it (nil before the first attempt). -/
def decryptLoop (a : AESGCM) (ciphertext : List Byte) : List Key32 → Option Error →
    Result (List Byte)
  | [], none => .ok []
  | [], some e => .err e
  | key :: rest, _ =>
    match decrypt a ciphertext key with
    | .ok plaintext => .ok plaintext
    | .err e => decryptLoop a ciphertext rest (some e)
    | .panic msg => .panic msg

/-- The method `Decrypt`: tries every key of the list in order. With no key at all the Go
code returns a nil plaintext and a nil error, which is `ok []` here. -/
def Decrypt (a : AESGCM) (ciphertext : List Byte) : Result (List Byte) :=
  decryptLoop a ciphertext a.keys none

/-! ### Concrete values for the examples -/

/-- The bytes of an ASCII string. -/
def bytesOf (s : String) : List Byte := s.toList.map (fun c => Fin.ofNat c.toNat)

/-- A first 32-byte key. -/
def keyA : Key32 := ⟨bytesOf "0123456789abcdef0123456789abcdef", by decide⟩

/-- A second 32-byte key. -/
def keyB : Key32 := ⟨bytesOf "fedcba9876543210fedcba9876543210", by decide⟩

/-- A 12-byte nonce. -/
def nonceA : List Byte := bytesOf "abcdefghijkl"

/-- Another 12-byte nonce. -/
def nonceB : List Byte := bytesOf "ABCDEFGHIJKL"

/-- The manager built from the key list `[keyA, keyB]`. -/
def managerAB : AESGCM := ⟨[keyA, keyB]⟩

/-- The manager built from the key list `[keyB, keyA]`. -/
def managerBA : AESGCM := ⟨[keyB, keyA]⟩

/-- The manager built from the key list `[keyA]`. -/
def managerA : AESGCM := ⟨[keyA]⟩

/-- A 16-byte plaintext whose envelope under `keyA` and `nonceA` is also accepted by
`keyB`. -/
def plainTwoKeys : List Byte :=
  [88, 222, 60, 211, 63, 197, 220, 60, 127, 228, 100, 119, 221, 26, 148, 28]

/-- What `keyB` makes of the envelope of `plainTwoKeys`. -/
def otherTwoKeys : List Byte :=
  [142, 136, 158, 127, 239, 97, 154, 140, 202, 166, 84, 131, 250, 130, 182, 243]

/-- The envelope of `plainTwoKeys` under `keyA` and `nonceA`. -/
def envelopeTwoKeys : List Byte :=
  bytesOf "YWJjZGVmZ2hpamtsMRL1bPQgse8c-JZm14PMIzJiYbK-GFAPQ8GuJVL2yPY="

/-- A 16-byte plaintext whose envelope under `keyA` and `nonceA`, once the last byte of its tag
is changed, is accepted by `keyB`. -/
def plainTamper : List Byte :=
  [71, 227, 132, 194, 95, 202, 15, 202, 30, 142, 11, 31, 5, 222, 108, 176]

/-- What `keyB` makes of the changed envelope of `plainTamper`. -/
def otherTamper : List Byte :=
  [145, 181, 38, 110, 143, 110, 73, 122, 171, 204, 59, 235, 34, 70, 78, 95]

/-- The decoded envelope of `plainTamper` under `keyA` and `nonceA`: 12 bytes of nonce, 16 of
ciphertext, 16 of tag. -/
def rawTamper : List Byte :=
  [97, 98, 99, 100, 101, 102, 103, 104, 105, 106, 107, 108,
   46, 47, 77, 125, 148, 47, 98, 25, 125, 146, 249, 14, 15, 71, 52, 143,
   134, 72, 139, 133, 70, 45, 196, 250, 110, 50, 94, 156, 16, 19, 92, 182]

/-- The hash subkey of `keyA`. -/
def hashSubkeyA : Nat := 167137605091743406788515425739512168821

end aes_gcm

/-! ## Known answers

The models of the standard library reproduce the published test vectors. -/

/-- FIPS-197, appendix C.3: the AES-256 example vector. -/
theorem aes256_known_answer :
    aes.encryptBlockGo (aes.expandKeyGo aes.fipsKey) 0x00112233445566778899aabbccddeeff =
      0x8ea2b7ca516745bfeafc49904b496089 := by decide!

/-- Test case 16 of the GCM specification: AES-256, 60 bytes of plaintext, 20 bytes of
additional data. -/
theorem gcm_known_answer :
    (aes.NewCipher cipher.gcmTestKey).toOption.map (fun block =>
      cipher.gcm.Seal ⟨block⟩ [] cipher.gcmTestNonce cipher.gcmTestPlain cipher.gcmTestData) =
      some (.ok cipher.gcmTestSealed) := by decide!

/-- The padded examples of RFC 4648 and the two characters particular to the URL-safe
alphabet. -/
theorem base64_known_answers :
    base64.EncodeToString [102] = [90, 103, 61, 61] ∧
      base64.EncodeToString [102, 111] = [90, 109, 56, 61] ∧
      base64.EncodeToString [102, 111, 111] = [90, 109, 57, 118] ∧
      base64.EncodeToString [0xfb, 0xff] = [45, 95, 56, 61] := by decide

namespace base64

theorem lor_add (k x y : Nat) (hx : x % 2 ^ k = 0) (hy : y < 2 ^ k) : x ||| y = x + y := by
  obtain ⟨a, rfl⟩ := Nat.dvd_of_mod_eq_zero hx
  rw [Nat.mul_add_lt_is_or hy]

theorem lor3 (a b c : Nat) (hb : b < 256) (hc : c < 256) :
    a <<< 16 ||| b <<< 8 ||| c = a * 65536 + b * 256 + c := by
  simp only [Nat.shiftLeft_eq]
  rw [lor_add 16 (a * 2 ^ 16) (b * 2 ^ 8) (by omega) (by omega),
    lor_add 8 (a * 2 ^ 16 + b * 2 ^ 8) c (by omega) (by omega)]

theorem lor4 (a b c d : Nat) (hb : b < 64) (hc : c < 64) (hd : d < 64) :
    a <<< 18 ||| b <<< 12 ||| c <<< 6 ||| d = a * 262144 + b * 4096 + c * 64 + d := by
  simp only [Nat.shiftLeft_eq]
  rw [lor_add 18 (a * 2 ^ 18) (b * 2 ^ 12) (by omega) (by omega),
    lor_add 12 (a * 2 ^ 18 + b * 2 ^ 12) (c * 2 ^ 6) (by omega) (by omega),
    lor_add 6 (a * 2 ^ 18 + b * 2 ^ 12 + c * 2 ^ 6) d (by omega) (by omega)]

theorem decodeMap_encode : ∀ v : Fin 64, decodeMap (encode v.val) = v.val := by decide

theorem decodeMap_encode_nat (v : Nat) : decodeMap (encode v) = v % 64 := by
  have h := decodeMap_encode ⟨v % 64, Nat.mod_lt _ (by norm_num)⟩
  simpa [encode] using h

theorem quantumBytes_full (a b c : Byte) :
    quantumBytes [(a.val <<< 16 ||| b.val <<< 8 ||| c.val) >>> 18 % 64,
      (a.val <<< 16 ||| b.val <<< 8 ||| c.val) >>> 12 % 64,
      (a.val <<< 16 ||| b.val <<< 8 ||| c.val) >>> 6 % 64,
      (a.val <<< 16 ||| b.val <<< 8 ||| c.val) % 64] 4 = [a, b, c] := by
  obtain ⟨a, ha⟩ := a
  obtain ⟨b, hb⟩ := b
  obtain ⟨c, hc⟩ := c
  simp only [quantumBytes, quantumVal, List.getD_cons_zero, List.getD_cons_succ]
  rw [lor3 a b c hb hc, lor4 _ _ _ _ (Nat.mod_lt _ (by norm_num)) (Nat.mod_lt _ (by norm_num))
    (Nat.mod_lt _ (by norm_num))]
  simp only [Nat.shiftRight_eq_div_pow, Fin.ofNat, List.take, Nat.reduceSub]
  simp only [List.cons.injEq, Fin.mk.injEq, and_true]
  refine ⟨?_, ?_, ?_⟩ <;> omega

theorem quantumBytes_two (a b : Byte) :
    quantumBytes [(a.val <<< 16 ||| b.val <<< 8) >>> 18 % 64,
      (a.val <<< 16 ||| b.val <<< 8) >>> 12 % 64,
      (a.val <<< 16 ||| b.val <<< 8) >>> 6 % 64] 3 = [a, b] := by
  obtain ⟨a, ha⟩ := a
  obtain ⟨b, hb⟩ := b
  have h0 : a <<< 16 ||| b <<< 8 = a * 65536 + b * 256 := by
    simpa using lor3 a b 0 hb (by norm_num)
  simp only [quantumBytes, quantumVal, List.getD_cons_zero, List.getD_cons_succ, List.getD_nil]
  rw [h0, lor4 _ _ _ _ (Nat.mod_lt _ (by norm_num)) (Nat.mod_lt _ (by norm_num))
    (by norm_num)]
  simp only [Nat.shiftRight_eq_div_pow, Fin.ofNat, List.take, Nat.reduceSub]
  simp only [List.cons.injEq, Fin.mk.injEq, and_true]
  refine ⟨?_, ?_⟩ <;> omega

theorem quantumBytes_one (a : Byte) :
    quantumBytes [(a.val <<< 16) >>> 18 % 64, (a.val <<< 16) >>> 12 % 64] 2 = [a] := by
  obtain ⟨a, ha⟩ := a
  have h0 : a <<< 16 = a * 65536 := by simp [Nat.shiftLeft_eq]
  have h1 : (0 : Nat) <<< 6 = 0 := by simp
  simp only [quantumBytes, quantumVal, List.getD_cons_zero, List.getD_cons_succ, List.getD_nil]
  rw [h0, ← h1, lor4 _ _ _ _ (Nat.mod_lt _ (by norm_num)) (by norm_num) (by norm_num)]
  simp only [Nat.shiftRight_eq_div_pow, Fin.ofNat, List.take, Nat.reduceSub]
  simp only [List.cons.injEq, Fin.mk.injEq, and_true]
  omega

theorem mod64_ne (v : Nat) : v % 64 ≠ 0xFF := by omega

theorem decodeLoop_encode (v : Nat) (rest : List Byte) (si : Nat) (dbuf : List Nat)
    (h : dbuf.length ≠ 3) :
    decodeLoop (encode v :: rest) si dbuf = decodeLoop rest (si + 1) (dbuf ++ [v % 64]) := by
  rw [decodeLoop]
  simp only [decodeMap_encode_nat, mod64_ne, ne_eq, not_false_eq_true, if_true, h, if_false]

theorem decodeLoop_encode_last (v : Nat) (rest : List Byte) (si : Nat) (dbuf : List Nat)
    (h : dbuf.length = 3) :
    decodeLoop (encode v :: rest) si dbuf =
      match decodeLoop rest (si + 1) [] with
      | .ok tail => .ok (quantumBytes (dbuf ++ [v % 64]) 4 ++ tail)
      | .error e => .error e := by
  rw [decodeLoop]
  simp only [decodeMap_encode_nat, mod64_ne, ne_eq, not_false_eq_true, if_true, h]

theorem decodeLoop_pad (rest : List Byte) (si : Nat) (dbuf : List Nat) :
    decodeLoop (padChar :: rest) si dbuf = decodePadding dbuf rest (si + 1) := by
  rw [decodeLoop]
  have h1 : decodeMap padChar = 0xFF := by decide
  have h2 : isNewline padChar = false := by decide
  simp [h1, h2]

theorem decodeLoop_EncodeToString (bs : List Byte) :
    ∀ si, decodeLoop (EncodeToString bs) si [] = .ok bs := by
  induction bs using EncodeToString.induct with
  | case1 => intro si; simp [EncodeToString, decodeLoop]
  | case2 a =>
    intro si
    simp only [EncodeToString]
    rw [decodeLoop_encode _ _ _ _ (by simp), decodeLoop_encode _ _ _ _ (by simp), decodeLoop_pad]
    have h := quantumBytes_one a
    simp [decodePadding, skipNewlines, isNewline, padChar] at h ⊢
    exact h
  | case3 a b =>
    intro si
    simp only [EncodeToString]
    rw [decodeLoop_encode _ _ _ _ (by simp), decodeLoop_encode _ _ _ _ (by simp),
      decodeLoop_encode _ _ _ _ (by simp), decodeLoop_pad]
    have h := quantumBytes_two a b
    simp [decodePadding, skipNewlines] at h ⊢
    exact h
  | case4 a b c rest ih =>
    intro si
    simp only [EncodeToString]
    rw [decodeLoop_encode _ _ _ _ (by simp), decodeLoop_encode _ _ _ _ (by simp),
      decodeLoop_encode _ _ _ _ (by simp), decodeLoop_encode_last _ _ _ _ (by simp), ih]
    have h := quantumBytes_full a b c
    simp only [List.nil_append, List.cons_append] at h ⊢
    rw [h]
    rfl

theorem DecodeString_EncodeToString (bs : List Byte) :
    DecodeString (EncodeToString bs) = .ok bs := decodeLoop_EncodeToString bs 0

end base64

namespace aes

theorem sub_lt (b : Nat) : sub b < 256 := by
  have h : ∀ i : Fin 256, sbox0.getD i.val 0 < 256 := by decide!
  exact h ⟨b % 256, Nat.mod_lt _ (by norm_num)⟩

theorem word_lt (a b c d : Nat) (ha : a < 256) (hb : b < 256) (hc : c < 256) (hd : d < 256) :
    word a b c d < 2 ^ 32 := by
  unfold word
  refine Nat.or_lt_two_pow (Nat.or_lt_two_pow (Nat.or_lt_two_pow ?_ ?_) ?_) ?_
  · rw [Nat.shiftLeft_eq]; omega
  · rw [Nat.shiftLeft_eq]; omega
  · rw [Nat.shiftLeft_eq]; omega
  · omega

theorem subw_lt (w : Nat) : subw w < 2 ^ 32 :=
  word_lt _ _ _ _ (sub_lt _) (sub_lt _) (sub_lt _) (sub_lt _)

theorem powx_lt (i : Nat) : powx.getD i 0 <<< 24 < 2 ^ 32 := by
  have h : ∀ j : Fin 16, powx.getD j.val 0 < 256 := by decide
  have h2 : powx.getD i 0 < 256 := by
    by_cases hi : i < 16
    · exact h ⟨i, hi⟩
    · rw [List.getD_eq_default _ _ (by simpa [powx] using hi)]
      norm_num
  rw [Nat.shiftLeft_eq]
  omega

theorem Words32.getD {l : List Nat} (h : Words32 l) (i : Nat) : l.getD i 0 < 2 ^ 32 := by
  by_cases hi : i < l.length
  · rw [List.getD_eq_getElem _ _ hi]
    exact h _ (List.getElem_mem _)
  · rw [List.getD_eq_default _ _ (by omega)]
    norm_num

theorem beUint_append (bs : List Byte) (b : Byte) : beUint (bs ++ [b]) = beUint bs * 256 + b.val := by
  simp [beUint, List.foldl_append]

theorem beUint_lt (bs : List Byte) : beUint bs < 256 ^ bs.length := by
  induction bs using List.reverseRecOn with
  | nil => simp [beUint]
  | append_singleton bs b ih =>
    rw [beUint_append, List.length_append, List.length_singleton, pow_succ]
    have hb := b.isLt
    nlinarith

theorem keyWords_words32 : ∀ (n : Nat) (key : List Byte), Words32 (keyWords n key)
  | 0, _ => by simp [keyWords, Words32]
  | n + 1, key => by
    intro w hw
    rw [keyWords] at hw
    rcases List.mem_cons.mp hw with rfl | hw
    · have h := beUint_lt (key.take 4)
      have h2 : 256 ^ (key.take 4).length ≤ 256 ^ 4 :=
        Nat.pow_le_pow_right (by norm_num) (by rw [List.length_take]; omega)
      exact Nat.lt_of_lt_of_le h h2
    · exact keyWords_words32 n _ w hw

theorem expandLoop_words32 (nk : Nat) : ∀ (count i : Nat) (enc : List Nat), Words32 enc →
    Words32 (expandLoop nk count i enc)
  | 0, _, enc, h => by simpa [expandLoop] using h
  | count + 1, i, enc, h => by
    rw [expandLoop]
    apply expandLoop_words32 nk count
    intro w hw
    rcases List.mem_append.mp hw with hw | hw
    · exact h w hw
    · rw [List.mem_singleton] at hw
      subst hw
      apply Nat.xor_lt_two_pow (h.getD _)
      split
      · exact Nat.xor_lt_two_pow (subw_lt _) (powx_lt _)
      · split
        · exact subw_lt _
        · exact h.getD _

theorem expandKeyGo_words32 (key : List Byte) : Words32 (expandKeyGo key) :=
  expandLoop_words32 _ _ _ _ (keyWords_words32 _ _)

theorem encryptBlockGo_lt (xk : List Nat) (h : Words32 xk) (src : Nat) :
    encryptBlockGo xk src < 2 ^ 128 := by
  unfold encryptBlockGo
  have hd : ∀ n, Words32 (xk.drop n) := fun n w hw => h w (List.mem_of_mem_drop hw)
  simp only
  generalize roundLoop _ _ _ = r
  obtain ⟨t0, t1, t2, t3⟩ := r
  simp only
  have hs : ∀ a b c d i, word (sub a) (sub b) (sub c) (sub d) ^^^
      (xk.drop (4 + 4 * (xk.length / 4 - 2))).getD i 0 < 2 ^ 32 := fun a b c d i =>
    Nat.xor_lt_two_pow (word_lt _ _ _ _ (sub_lt _) (sub_lt _) (sub_lt _) (sub_lt _))
      ((hd _).getD i)
  have h0 := hs (t0 >>> 24) (t1 >>> 16) (t2 >>> 8) t3 0
  have h1 := hs (t1 >>> 24) (t2 >>> 16) (t3 >>> 8) t0 1
  have h2 := hs (t2 >>> 24) (t3 >>> 16) (t0 >>> 8) t1 2
  have h3 := hs (t3 >>> 24) (t0 >>> 16) (t1 >>> 8) t2 3
  refine Nat.or_lt_two_pow (Nat.or_lt_two_pow (Nat.or_lt_two_pow ?_ ?_) ?_) ?_
  · rw [Nat.shiftLeft_eq]; omega
  · rw [Nat.shiftLeft_eq]; omega
  · rw [Nat.shiftLeft_eq]; omega
  · omega

end aes

namespace cipher

theorem xor_xor_cancel (a k : Byte) : (a ^^^ k) ^^^ k = a := by
  obtain ⟨a, ha⟩ := a
  obtain ⟨k, hk⟩ := k
  have h1 : a ^^^ k < 256 := Nat.xor_lt_two_pow (n := 8) ha hk
  apply Fin.ext
  show ((a ^^^ k) % 256 ^^^ k) % 256 = a
  rw [Nat.mod_eq_of_lt h1, Nat.xor_assoc, Nat.xor_self, Nat.xor_zero, Nat.mod_eq_of_lt ha]

theorem XORBytes_length (x y : List Byte) : (XORBytes x y).length = min x.length y.length := by
  simp [XORBytes]

theorem XORBytes_cancel : ∀ (p ks : List Byte), p.length ≤ ks.length →
    XORBytes (XORBytes p ks) ks = p
  | [], _, _ => by simp [XORBytes]
  | _ :: _, [], h => by simp at h
  | a :: p, k :: ks, h => by
    have ih := XORBytes_cancel p ks (by simpa using h)
    simp only [XORBytes, List.zipWith_cons_cons, List.cons.injEq] at ih ⊢
    exact ⟨xor_xor_cancel a k, ih⟩

theorem putUint128_length (x : Nat) : (putUint128 x).length = 16 := rfl

theorem keyStream_length (c : aes.Block) : ∀ (n counter : Nat),
    (keyStream c n counter).length = 16 * n
  | 0, _ => rfl
  | n + 1, counter => by
    rw [keyStream, List.length_append, putUint128_length, keyStream_length c n]
    omega

theorem counterCrypt_length (g : gcm) (inp : List Byte) (counter : Nat) :
    (g.counterCrypt inp counter).length = inp.length := by
  rw [gcm.counterCrypt, XORBytes_length, keyStream_length]
  omega

theorem counterCrypt_cancel (g : gcm) (inp : List Byte) (counter : Nat) :
    g.counterCrypt (g.counterCrypt inp counter) counter = inp := by
  have hl := counterCrypt_length g inp counter
  rw [gcm.counterCrypt, hl]
  rw [gcm.counterCrypt]
  apply XORBytes_cancel
  rw [keyStream_length]
  omega

theorem auth_length (g : gcm) (ct ad : List Byte) (tagMask : Nat) :
    (g.auth ct ad tagMask).length = 16 := rfl

theorem sealed_length (g : gcm) (nonce plaintext : List Byte) :
    (sealed g nonce plaintext).length = plaintext.length + 16 := by
  rw [sealed, List.length_append, counterCrypt_length, auth_length]

theorem Seal_eq (g : gcm) (dst nonce plaintext : List Byte) (hn : nonce.length = 12)
    (hp : plaintext.length ≤ maxPlaintext) :
    g.Seal dst nonce plaintext [] = .ok (dst ++ sealed g nonce plaintext) := by
  simp [gcm.Seal, gcm.NonceSize, gcmStandardNonceSize, hn, Nat.not_lt.mpr hp, sealed]

theorem Seal_too_large (g : gcm) (dst nonce plaintext : List Byte) (hn : nonce.length = 12)
    (hp : maxPlaintext < plaintext.length) :
    g.Seal dst nonce plaintext [] = .panic "crypto/cipher: message too large for GCM" := by
  simp [gcm.Seal, gcm.NonceSize, gcmStandardNonceSize, hn, hp]

theorem Open_sealed (g : gcm) (nonce plaintext : List Byte) (hn : nonce.length = 12)
    (hp : plaintext.length ≤ maxPlaintext) :
    g.Open [] nonce (sealed g nonce plaintext) [] = .ok plaintext := by
  have hl := sealed_length g nonce plaintext
  have hc := counterCrypt_length g plaintext (gcmInc32 (deriveCounter nonce))
  have hdrop : (sealed g nonce plaintext).drop ((sealed g nonce plaintext).length - gcmTagSize) =
      g.auth (g.counterCrypt plaintext (gcmInc32 (deriveCounter nonce))) []
        (g.cipher.Encrypt (deriveCounter nonce)) := by
    rw [hl, sealed]
    simp [gcmTagSize, List.drop_append_eq_append_drop, hc]
  have htake : (sealed g nonce plaintext).take ((sealed g nonce plaintext).length - gcmTagSize) =
      g.counterCrypt plaintext (gcmInc32 (deriveCounter nonce)) := by
    rw [hl, sealed]
    simp [gcmTagSize, List.take_append_eq_append_take, hc]
  rw [gcm.Open]
  simp only [gcm.NonceSize, gcmStandardNonceSize, hn, ne_eq, not_true_eq_false, if_false]
  rw [if_neg (by rw [hl]; simp [gcmTagSize]), if_neg (by rw [hl]; simp [gcmTagSize]; omega)]
  simp only [hdrop, htake, not_true_eq_false, if_false, List.nil_append, counterCrypt_cancel]


/-! ### GHASH separates ciphertexts that differ in one byte -/

theorem gcmR_lt : gcmR < 2 ^ 128 := by decide

theorem mulLoop_lt : ∀ (n x z v : Nat), z < 2 ^ 128 → v < 2 ^ 128 → mulLoop n x z v < 2 ^ 128
  | 0, _, _, _, hz, _ => by simpa [mulLoop] using hz
  | n + 1, x, z, v, hz, hv => by
    rw [mulLoop]
    apply mulLoop_lt n
    · split
      · exact Nat.xor_lt_two_pow hz hv
      · exact hz
    · have hs : v >>> 1 < 2 ^ 128 := by
        rw [Nat.shiftRight_eq_div_pow]
        omega
      split
      · exact Nat.xor_lt_two_pow hs gcmR_lt
      · exact hs

theorem gcmMul_lt (x h : Nat) (hh : h < 2 ^ 128) : gcmMul x h < 2 ^ 128 :=
  mulLoop_lt 128 x 0 h (by norm_num) hh

theorem mulLoop_xor : ∀ (n x y z1 z2 v : Nat),
    mulLoop n (x ^^^ y) (z1 ^^^ z2) v = mulLoop n x z1 v ^^^ mulLoop n y z2 v
  | 0, _, _, _, _, _ => by simp [mulLoop]
  | n + 1, x, y, z1, z2, v => by
    rw [mulLoop, mulLoop, mulLoop]
    simp only [Nat.testBit_xor]
    have key : (if (x.testBit n ^^ y.testBit n) = true then z1 ^^^ z2 ^^^ v else z1 ^^^ z2) =
        (if x.testBit n = true then z1 ^^^ v else z1) ^^^
          (if y.testBit n = true then z2 ^^^ v else z2) := by
      cases x.testBit n <;> cases y.testBit n <;> simp <;>
        (apply Nat.eq_of_testBit_eq; intro i; simp only [Nat.testBit_xor];
          cases z1.testBit i <;> cases z2.testBit i <;> cases v.testBit i <;> rfl)
    rw [key]
    exact mulLoop_xor n x y _ _ _

theorem gcmMul_xor (x y h : Nat) : gcmMul (x ^^^ y) h = gcmMul x h ^^^ gcmMul y h := by
  have := mulLoop_xor 128 x y 0 0 h
  simpa [gcmMul] using this

theorem gcmMul_inj (h a b : Nat) (hreg : NoZeroDivisor h) (ha : a < 2 ^ 128) (hb : b < 2 ^ 128)
    (heq : gcmMul a h = gcmMul b h) : a = b := by
  have h0 : gcmMul (a ^^^ b) h = 0 := by rw [gcmMul_xor, heq, Nat.xor_self]
  have h1 := hreg _ (Nat.xor_lt_two_pow ha hb) h0
  exact Nat.xor_eq_zero.mp h1

theorem beUint_inj : ∀ (bs cs : List Byte), bs.length = cs.length →
    aes.beUint bs = aes.beUint cs → bs = cs := by
  intro bs
  induction bs using List.reverseRecOn with
  | nil =>
    intro cs hlen _
    exact (List.length_eq_zero.mp hlen.symm).symm
  | append_singleton bs b ih =>
    intro cs hlen heq
    rcases List.eq_nil_or_concat cs with rfl | ⟨cs, c, rfl⟩
    · simp at hlen
    · rw [List.concat_eq_append] at hlen heq ⊢
      rw [aes.beUint_append, aes.beUint_append] at heq
      have hb := b.isLt
      have hc := c.isLt
      have h1 : aes.beUint bs = aes.beUint cs := by omega
      have h2 : b.val = c.val := by omega
      rw [ih cs (by simpa using hlen) h1, Fin.ext h2]

theorem blockOf_lt (bs : List Byte) (h : bs.length ≤ 16) : blockOf bs < 2 ^ 128 := by
  rw [blockOf, Nat.shiftLeft_eq]
  have h1 := aes.beUint_lt bs
  have h2 : (256 : Nat) ^ bs.length * 2 ^ (8 * (16 - bs.length)) = 2 ^ 128 := by
    rw [show (256 : Nat) = 2 ^ 8 by norm_num, ← pow_mul, ← pow_add]
    congr 1
    omega
  rw [← h2]
  exact Nat.mul_lt_mul_of_pos_right h1 (by positivity)

theorem blockOf_inj (bs cs : List Byte) (hlen : bs.length = cs.length)
    (heq : blockOf bs = blockOf cs) : bs = cs := by
  rw [blockOf, blockOf, hlen, Nat.shiftLeft_eq, Nat.shiftLeft_eq] at heq
  exact beUint_inj bs cs hlen (Nat.eq_of_mul_eq_mul_right (by positivity) heq)

theorem updateBlocks_lt (h : Nat) (hh : h < 2 ^ 128) : ∀ (n y : Nat) (data : List Byte),
    y < 2 ^ 128 → updateBlocks h n y data < 2 ^ 128
  | 0, y, _, hy => by simpa [updateBlocks] using hy
  | n + 1, y, data, _ => by
    rw [updateBlocks]
    exact updateBlocks_lt h hh n _ _ (gcmMul_lt _ _ hh)

theorem step_ne (h : Nat) (hreg : NoZeroDivisor h) (y z b c : Nat) (hy : y < 2 ^ 128)
    (hz : z < 2 ^ 128) (hb : b < 2 ^ 128) (hc : c < 2 ^ 128) (hne : y ^^^ b ≠ z ^^^ c) :
    gcmMul (y ^^^ b) h ≠ gcmMul (z ^^^ c) h :=
  fun heq => hne (gcmMul_inj h _ _ hreg (Nat.xor_lt_two_pow hy hb) (Nat.xor_lt_two_pow hz hc) heq)

theorem updateBlocks_ne_of_start (h : Nat) (hh : h < 2 ^ 128) (hreg : NoZeroDivisor h) :
    ∀ (n y z : Nat) (data : List Byte), y < 2 ^ 128 → z < 2 ^ 128 → y ≠ z →
      updateBlocks h n y data ≠ updateBlocks h n z data
  | 0, y, z, _, _, _, hne => by simpa [updateBlocks] using hne
  | n + 1, y, z, data, hy, hz, hne => by
    rw [updateBlocks, updateBlocks]
    have hb := blockOf_lt (data.take 16) (by rw [List.length_take]; omega)
    exact updateBlocks_ne_of_start h hh hreg n _ _ _ (gcmMul_lt _ _ hh) (gcmMul_lt _ _ hh)
      (step_ne h hreg y z _ _ hy hz hb hb (fun heq => hne (Nat.xor_left_inj.mp heq)))

theorem updateBlocks_ne_of_set (h : Nat) (hh : h < 2 ^ 128) (hreg : NoZeroDivisor h) :
    ∀ (n y : Nat) (data : List Byte) (i : Nat) (b : Byte), y < 2 ^ 128 → i < data.length →
      i < 16 * n → data[i]? ≠ some b →
      updateBlocks h n y data ≠ updateBlocks h n y (data.set i b)
  | 0, _, _, _, _, _, _, hi, _ => by omega
  | n + 1, y, data, i, b, hy, hlen, _, hb => by
    rw [updateBlocks, updateBlocks]
    have hblk := blockOf_lt (data.take 16) (by rw [List.length_take]; omega)
    by_cases hi : i < 16
    · have htake : (data.set i b).take 16 = (data.take 16).set i b := List.set_take
      have hdrop : (data.set i b).drop 16 = data.drop 16 := List.drop_set_of_lt b data hi
      rw [htake, hdrop]
      have hblk2 := blockOf_lt ((data.take 16).set i b)
        (by rw [List.length_set, List.length_take]; exact Nat.min_le_left _ _)
      apply updateBlocks_ne_of_start h hh hreg n _ _ _ (gcmMul_lt _ _ hh) (gcmMul_lt _ _ hh)
      apply step_ne h hreg y y _ _ hy hy hblk hblk2
      intro heq
      have hB := blockOf_inj _ _ (by rw [List.length_set]) (Nat.xor_right_inj.mp heq)
      apply hb
      have hget : (data.take 16)[i]? = ((data.take 16).set i b)[i]? := by rw [← hB]
      rw [List.getElem?_set_self (by rw [List.length_take]; omega),
        List.getElem?_take_of_lt hi] at hget
      exact hget
    · have htake : (data.set i b).take 16 = data.take 16 := by
        rw [List.set_take, List.set_eq_of_length_le]
        rw [List.length_take]
        omega
      have hdrop : (data.set i b).drop 16 = (data.drop 16).set (i - 16) b := by
        rw [List.drop_set, if_neg (by omega)]
      rw [htake, hdrop]
      apply updateBlocks_ne_of_set h hh hreg n _ _ _ _ (gcmMul_lt _ _ hh)
      · rw [List.length_drop]; omega
      · omega
      · rw [List.getElem?_drop]
        rw [show 16 + (i - 16) = i by omega]
        exact hb

theorem byte_eq (x y k : Nat) (h : (Fin.ofNat (x >>> k) : Byte) = Fin.ofNat (y >>> k)) :
    x / 2 ^ k % 256 = y / 2 ^ k % 256 := by
  have h2 := congrArg Fin.val h
  simpa only [Fin.ofNat, Nat.shiftRight_eq_div_pow] using h2

theorem div_step (x y k : Nat) (h1 : x / 2 ^ (k + 8) = y / 2 ^ (k + 8))
    (h2 : x / 2 ^ k % 256 = y / 2 ^ k % 256) : x / 2 ^ k = y / 2 ^ k := by
  rw [pow_add, ← Nat.div_div_eq_div_mul, ← Nat.div_div_eq_div_mul] at h1
  norm_num at h1
  omega

theorem putUint128_inj (x y : Nat) (hx : x < 2 ^ 128) (hy : y < 2 ^ 128)
    (h : putUint128 x = putUint128 y) : x = y := by
  simp only [putUint128, List.cons.injEq, and_true] at h
  obtain ⟨h0, h1, h2, h3, h4, h5, h6, h7, h8, h9, h10, h11, h12, h13, h14, h15⟩ := h
  have e15 : x / 2 ^ 0 % 256 = y / 2 ^ 0 % 256 := by
    have h2 := congrArg Fin.val h15
    simpa only [Fin.ofNat, pow_zero, Nat.div_one] using h2
  have d16 : x / 2 ^ (120 + 8) = y / 2 ^ (120 + 8) := by
    rw [Nat.div_eq_of_lt hx, Nat.div_eq_of_lt hy]
  have d15 := div_step x y 120 d16 (byte_eq x y 120 h0)
  have d14 := div_step x y 112 d15 (byte_eq x y 112 h1)
  have d13 := div_step x y 104 d14 (byte_eq x y 104 h2)
  have d12 := div_step x y 96 d13 (byte_eq x y 96 h3)
  have d11 := div_step x y 88 d12 (byte_eq x y 88 h4)
  have d10 := div_step x y 80 d11 (byte_eq x y 80 h5)
  have d9 := div_step x y 72 d10 (byte_eq x y 72 h6)
  have d8 := div_step x y 64 d9 (byte_eq x y 64 h7)
  have d7 := div_step x y 56 d8 (byte_eq x y 56 h8)
  have d6 := div_step x y 48 d7 (byte_eq x y 48 h9)
  have d5 := div_step x y 40 d6 (byte_eq x y 40 h10)
  have d4 := div_step x y 32 d5 (byte_eq x y 32 h11)
  have d3 := div_step x y 24 d4 (byte_eq x y 24 h12)
  have d2 := div_step x y 16 d3 (byte_eq x y 16 h13)
  have d1 := div_step x y 8 d2 (byte_eq x y 8 h14)
  have d0 := div_step x y 0 d1 e15
  simpa using d0

theorem gcmMul_zero_left (h : Nat) : gcmMul 0 h = 0 := by
  have := gcmMul_xor 0 0 h
  simpa using this

theorem update_nil (h y : Nat) : update h y [] = y := by
  simp [update, updateBlocks]

theorem auth_ne_of_set (g : gcm) (ct : List Byte) (i : Nat) (b : Byte) (tagMask : Nat)
    (hh : g.cipher.Encrypt 0 < 2 ^ 128) (hreg : NoZeroDivisor (g.cipher.Encrypt 0))
    (hm : tagMask < 2 ^ 128) (hi : i < ct.length) (hb : ct[i]? ≠ some b) :
    g.auth ct [] tagMask ≠ g.auth (ct.set i b) [] tagMask := by
  intro heq
  simp only [gcm.auth, update_nil, List.length_set, update] at heq
  have hlens : (([] : List Byte).length * 8 % 2 ^ 64) <<< 64 ||| ct.length * 8 % 2 ^ 64
      < 2 ^ 128 := by
    apply Nat.or_lt_two_pow
    · simp
    · have := Nat.mod_lt (ct.length * 8) (show 0 < 2 ^ 64 by norm_num)
      omega
  have hy1 := updateBlocks_lt _ hh ((ct.length + 15) / 16) 0 ct (by norm_num)
  have hy2 := updateBlocks_lt _ hh ((ct.length + 15) / 16) 0 (ct.set i b) (by norm_num)
  have h1 := putUint128_inj _ _ (Nat.xor_lt_two_pow (gcmMul_lt _ _ hh) hm)
    (Nat.xor_lt_two_pow (gcmMul_lt _ _ hh) hm) heq
  have h2 := Nat.xor_left_inj.mp h1
  have h3 := gcmMul_inj _ _ _ hreg (Nat.xor_lt_two_pow hy1 hlens) (Nat.xor_lt_two_pow hy2 hlens) h2
  have h4 := Nat.xor_left_inj.mp h3
  have hin : i < 16 * ((ct.length + 15) / 16) := by omega
  exact updateBlocks_ne_of_set _ hh hreg ((ct.length + 15) / 16) 0 ct i b (by norm_num) hi hin hb
    h4

theorem mulLoop_zero : ∀ (n x z : Nat), mulLoop n x z 0 = z
  | 0, _, _ => rfl
  | n + 1, x, z => by
    rw [mulLoop]
    simp only [Nat.xor_zero, ite_self, Nat.zero_mod, zero_ne_one, if_false, Nat.zero_shiftRight]
    exact mulLoop_zero n x z

/-- With a hash subkey equal to 0 the tag would not depend on the ciphertext at all: the
condition on the hash subkey in `auth_ne_of_set` cannot simply be dropped. -/
theorem auth_of_zero_subkey (g : gcm) (ct : List Byte) (tagMask : Nat)
    (h0 : g.cipher.Encrypt 0 = 0) : g.auth ct [] tagMask = putUint128 tagMask := by
  simp only [gcm.auth, h0, gcmMul, mulLoop_zero, Nat.zero_xor]


/-! ### GF(2^128) has no zero divisor -/

theorem powMod_eq (a m : Nat) : ∀ (fuel e : Nat), e < 2 ^ fuel → powMod a m fuel e = a ^ e % m
  | 0, e, h => by
    have he : e = 0 := by simpa using h
    simp [powMod, he]
  | fuel + 1, e, h => by
    have ih := powMod_eq a m fuel (e / 2) (by rw [pow_succ] at h; omega)
    rw [powMod]
    simp only [ih]
    have hsq : a ^ (e / 2) % m * (a ^ (e / 2) % m) % m = a ^ (2 * (e / 2)) % m := by
      rw [← Nat.mul_mod, ← pow_add]
      congr 2
      omega
    rw [hsq]
    split
    · rename_i hodd
      rw [Nat.mod_mul_mod, ← pow_succ]
      congr 2
      omega
    · congr 2
      omega

theorem zmod_pow_eq_one (p a e : Nat) (h : powMod a p 64 e = 1 % p) (he : e < 2 ^ 64) :
    (a : ZMod p) ^ e = 1 := by
  rw [powMod_eq a p 64 e he] at h
  have h2 : ((a ^ e : ℕ) : ZMod p) = ((1 : ℕ) : ZMod p) :=
    (ZMod.natCast_eq_natCast_iff' _ _ _).mpr (by simpa using h)
  simpa using h2

theorem zmod_pow_ne_one (p a e : Nat) (h : powMod a p 64 e ≠ 1 % p) (he : e < 2 ^ 64) :
    (a : ZMod p) ^ e ≠ 1 := by
  rw [powMod_eq a p 64 e he] at h
  intro h1
  apply h
  have h2 : ((a ^ e : ℕ) : ZMod p) = ((1 : ℕ) : ZMod p) := by simpa using h1
  simpa using (ZMod.natCast_eq_natCast_iff' _ _ _).mp h2

theorem prime_2998279 : Nat.Prime 2998279 := by norm_num

theorem prime_67280421310721 : Nat.Prime 67280421310721 := by
  apply lucas_primality 67280421310721 ((3 : ℕ) : ZMod 67280421310721)
  · exact zmod_pow_eq_one _ 3 _ (by decide!) (by norm_num)
  · intro q hq hdvd
    have hfac : 67280421310721 - 1 = 2 ^ 8 * 5 * 47 * 373 * 2998279 := by norm_num
    rw [hfac] at hdvd
    have hcases : q = 2 ∨ q = 5 ∨ q = 47 ∨ q = 373 ∨ q = 2998279 := by
      rcases (Nat.Prime.dvd_mul hq).mp hdvd with h | h
      · rcases (Nat.Prime.dvd_mul hq).mp h with h | h
        · rcases (Nat.Prime.dvd_mul hq).mp h with h | h
          · rcases (Nat.Prime.dvd_mul hq).mp h with h | h
            · exact Or.inl ((Nat.prime_dvd_prime_iff_eq hq Nat.prime_two).mp
                (hq.dvd_of_dvd_pow h))
            · exact Or.inr (Or.inl ((Nat.prime_dvd_prime_iff_eq hq (by norm_num)).mp h))
          · exact Or.inr (Or.inr (Or.inl ((Nat.prime_dvd_prime_iff_eq hq (by norm_num)).mp h)))
        · exact Or.inr (Or.inr (Or.inr (Or.inl
            ((Nat.prime_dvd_prime_iff_eq hq (by norm_num)).mp h))))
      · exact Or.inr (Or.inr (Or.inr (Or.inr
          ((Nat.prime_dvd_prime_iff_eq hq prime_2998279).mp h))))
    rcases hcases with rfl | rfl | rfl | rfl | rfl
    · exact zmod_pow_ne_one _ 3 _ (by decide!) (by norm_num)
    · exact zmod_pow_ne_one _ 3 _ (by decide!) (by norm_num)
    · exact zmod_pow_ne_one _ 3 _ (by decide!) (by norm_num)
    · exact zmod_pow_ne_one _ 3 _ (by decide!) (by norm_num)
    · exact zmod_pow_ne_one _ 3 _ (by decide!) (by norm_num)

theorem mulLoop_succ (n x z v : Nat) :
    mulLoop (n + 1) x z v = mulLoop n x (if x.testBit n then z ^^^ v else z) (mulX v) := by
  rw [mulLoop, mulX]

theorem mulX_lt (v : Nat) (hv : v < 2 ^ 128) : mulX v < 2 ^ 128 := by
  have hs : v >>> 1 < 2 ^ 128 := by
    rw [Nat.shiftRight_eq_div_pow]
    omega
  rw [mulX]
  split
  · exact Nat.xor_lt_two_pow hs gcmR_lt
  · exact hs

theorem mulX_zero : mulX 0 = 0 := by decide

theorem mulX_eq (v : Nat) : mulX v = v >>> 1 ^^^ (if v.testBit 0 then gcmR else 0) := by
  rw [mulX, Nat.testBit_zero]
  by_cases h : v % 2 = 1 <;> simp [h]

theorem mulX_xor (a b : Nat) : mulX (a ^^^ b) = mulX a ^^^ mulX b := by
  rw [mulX_eq, mulX_eq, mulX_eq, Nat.testBit_xor]
  apply Nat.eq_of_testBit_eq
  intro i
  cases a.testBit 0 <;> cases b.testBit 0 <;>
    simp only [Nat.testBit_xor, Nat.testBit_shiftRight, Bool.xor_false, Bool.xor_true,
      Bool.not_false, Bool.not_true, if_true, if_false, Nat.zero_testBit, Bool.false_eq_true] <;>
    cases a.testBit (1 + i) <;> cases b.testBit (1 + i) <;> cases gcmR.testBit i <;> rfl

theorem mulX_eq_zero (c : Nat) (hc : c < 2 ^ 128) (h : mulX c = 0) : c = 0 := by
  rw [mulX] at h
  split at h
  · have h1 : c >>> 1 = gcmR := Nat.xor_eq_zero.mp h
    rw [Nat.shiftRight_eq_div_pow] at h1
    have h2 : gcmR = 0xe1 * 2 ^ 120 := by decide
    omega
  · rw [Nat.shiftRight_eq_div_pow] at h
    omega

theorem mulX_iterate_lt (k v : Nat) (hv : v < 2 ^ 128) : mulX^[k] v < 2 ^ 128 := by
  induction k with
  | zero => simpa using hv
  | succ k ih =>
    rw [Function.iterate_succ_apply']
    exact mulX_lt _ ih

theorem mulX_iterate_xor (k a b : Nat) : mulX^[k] (a ^^^ b) = mulX^[k] a ^^^ mulX^[k] b := by
  induction k with
  | zero => rfl
  | succ k ih => rw [Function.iterate_succ_apply', Function.iterate_succ_apply',
      Function.iterate_succ_apply', ih, mulX_xor]

theorem mulX_iterate_zero (k : Nat) : mulX^[k] 0 = 0 := by
  induction k with
  | zero => rfl
  | succ k ih => rw [Function.iterate_succ_apply', ih, mulX_zero]

theorem mulX_iterate_eq_zero (k c : Nat) (hc : c < 2 ^ 128) (h : mulX^[k] c = 0) : c = 0 := by
  induction k with
  | zero => simpa using h
  | succ k ih =>
    rw [Function.iterate_succ_apply'] at h
    exact ih (mulX_eq_zero _ (mulX_iterate_lt k c hc) h)

theorem mulX_iterate_inj (k a b : Nat) (ha : a < 2 ^ 128) (hb : b < 2 ^ 128)
    (h : mulX^[k] a = mulX^[k] b) : a = b := by
  have h0 : mulX^[k] (a ^^^ b) = 0 := by rw [mulX_iterate_xor, h, Nat.xor_self]
  exact Nat.xor_eq_zero.mp (mulX_iterate_eq_zero k _ (Nat.xor_lt_two_pow ha hb) h0)

theorem mulLoop_mulX : ∀ (n x z v : Nat),
    mulLoop n x (mulX z) (mulX v) = mulX (mulLoop n x z v)
  | 0, _, _, _ => by simp [mulLoop]
  | n + 1, x, z, v => by
    rw [mulLoop_succ, mulLoop_succ]
    have h : (if x.testBit n = true then mulX z ^^^ mulX v else mulX z) =
        mulX (if x.testBit n = true then z ^^^ v else z) := by
      split
      · rw [mulX_xor]
      · rfl
    rw [h]
    exact mulLoop_mulX n x _ _

theorem gcmMul_mulX (x y : Nat) : gcmMul x (mulX y) = mulX (gcmMul x y) := by
  have h := mulLoop_mulX 128 x 0 y
  rw [mulX_zero] at h
  exact h

theorem mod_two_pow_succ_xor (x n : Nat) :
    x % 2 ^ (n + 1) = x % 2 ^ n ^^^ (if x.testBit n then 2 ^ n else 0) := by
  apply Nat.eq_of_testBit_eq
  intro i
  rw [Nat.testBit_xor, Nat.testBit_mod_two_pow, Nat.testBit_mod_two_pow]
  by_cases hb : x.testBit n = true
  · simp only [hb, if_true, Nat.testBit_two_pow]
    rcases Nat.lt_trichotomy i n with h | h | h
    · have h1 : i < n + 1 := by omega
      have h2 : ¬ n = i := by omega
      simp [h, h1, h2]
    · subst h
      simp [hb]
    · have h1 : ¬ i < n + 1 := by omega
      have h2 : ¬ i < n := by omega
      have h3 : ¬ n = i := by omega
      simp [h1, h2, h3]
  · simp only [hb, if_false, Nat.zero_testBit, Bool.xor_false]
    rcases Nat.lt_trichotomy i n with h | h | h
    · have h1 : i < n + 1 := by omega
      simp [h, h1]
    · subst h
      simp at hb
      simp [hb]
    · have h1 : ¬ i < n + 1 := by omega
      have h2 : ¬ i < n := by omega
      simp [h1, h2]

theorem mulLoop_unit : ∀ (n x z : Nat),
    mulLoop (n + 1) x z (2 ^ n) = z ^^^ x % 2 ^ (n + 1)
  | 0, x, z => by
    rw [mulLoop_succ, mulLoop, mod_two_pow_succ_xor]
    simp only [pow_zero, Nat.mod_one, Nat.zero_xor]
    split <;> simp
  | n + 1, x, z => by
    rw [mulLoop_succ]
    have hx : mulX (2 ^ (n + 1)) = 2 ^ n := by
      rw [mulX, Nat.shiftRight_eq_div_pow, pow_succ]
      have h2 : 2 ^ n * 2 % 2 = 0 := by omega
      rw [if_neg (by omega)]
      omega
    rw [hx, mulLoop_unit n x, mod_two_pow_succ_xor x (n + 1)]
    split
    · rw [Nat.xor_assoc, Nat.xor_comm (2 ^ (n + 1))]
    · simp

theorem gcmMul_unit (x : Nat) (hx : x < 2 ^ 128) : gcmMul x (2 ^ 127) = x := by
  have h := mulLoop_unit 127 x 0
  have e : (2 : Nat) ^ (127 + 1) = 2 ^ 128 := by norm_num
  rw [Nat.zero_xor, e, Nat.mod_eq_of_lt hx] at h
  unfold gcmMul
  exact h

theorem gcmMul_iterate (x : Nat) (k y : Nat) :
    gcmMul x (mulX^[k] y) = mulX^[k] (gcmMul x y) := by
  induction k with
  | zero => simp only [Function.iterate_zero, id_eq]
  | succ k ih => rw [Function.iterate_succ_apply', gcmMul_mulX, ih,
      Function.iterate_succ_apply']

theorem gcmMul_pw (x k : Nat) (hx : x < 2 ^ 128) : gcmMul x (pw k) = mulX^[k] x := by
  rw [pw, gcmMul_iterate, gcmMul_unit x hx]

theorem pw_lt (k : Nat) : pw k < 2 ^ 128 := mulX_iterate_lt k _ (by norm_num)

theorem pw_add (j k : Nat) : gcmMul (pw j) (pw k) = pw (j + k) := by
  rw [gcmMul_pw _ _ (pw_lt j), pw, pw, Nat.add_comm, Function.iterate_add_apply]

theorem pw_zero : pw 0 = 2 ^ 127 := rfl

theorem pw_one : pw 1 = 2 ^ 126 := by
  rw [pw, Function.iterate_one]
  decide

theorem gpow_eq (m : Nat) : ∀ (fuel e : Nat), e < 2 ^ fuel → gpow (pw m) fuel e = pw (m * e)
  | 0, e, h => by
    have he : e = 0 := by simpa using h
    rw [gpow, he, Nat.mul_zero, pw_zero]
  | fuel + 1, e, h => by
    have ih := gpow_eq m fuel (e / 2) (by rw [pow_succ] at h; omega)
    rw [gpow]
    simp only [ih, pw_add]
    split
    · congr 1
      have : e = 2 * (e / 2) + 1 := by omega
      nth_rewrite 3 [this]
      ring
    · congr 1
      have : e = 2 * (e / 2) := by omega
      nth_rewrite 3 [this]
      ring

theorem gpow_generator (fuel e : Nat) (he : e < 2 ^ fuel) : gpow (2 ^ 126) fuel e = pw e := by
  have h := gpow_eq 1 fuel e he
  rw [pw_one, Nat.one_mul] at h
  exact h

theorem pw_of_gpow (m e fuel a r : Nat) (hm : pw m = a) (he : e < 2 ^ fuel)
    (hr : gpow a fuel e = r) : pw (m * e) = r := by
  rw [← hr, ← hm, gpow_eq m fuel e he]

theorem pw_ne_of_gpow (m e fuel a : Nat) (hm : pw m = a) (he : e < 2 ^ fuel)
    (hr : gpow a fuel e ≠ 2 ^ 127) : pw (m * e) ≠ 2 ^ 127 := by
  rw [← hm, gpow_eq m fuel e he] at hr
  exact hr

/-- The power `x ^ (2^64 + 1)`. -/
theorem pw_high : pw 18446744073709551617 = 74170070949103343531862421686529577795 := by
  rw [← gpow_generator 65 _ (by decide)]
  decide!

/-- The power `x ^ ((2^64 + 1) * (2^32 + 1))`. -/
theorem pw_high_plus : pw (18446744073709551617 * 4294967297) =
    162227884418142696519277761249532888905 :=
  pw_of_gpow _ _ 33 _ _ pw_high (by decide) (by decide!)

/-- The power `x ^ ((2^64 + 1) * (2^32 - 1))`. -/
theorem pw_high_minus : pw (18446744073709551617 * 4294967295) =
    329623744386958285026964927486505741878 :=
  pw_of_gpow _ _ 32 _ _ pw_high (by decide) (by decide!)

/-- The power `x ^ (2^64 - 1)`. -/
theorem pw_low : pw 18446744073709551615 = 296680283796413374127449686746118311180 := by
  rw [← gpow_generator 64 _ (by decide)]
  decide!

theorem pw_fieldOrder : pw fieldOrder = 2 ^ 127 := by
  have h : fieldOrder = 18446744073709551617 * 4294967297 * 4294967295 := by decide
  rw [h]
  exact pw_of_gpow _ _ 32 _ _ pw_high_plus (by decide) (by decide!)

theorem fieldOrder_eq : fieldOrder = 2 ^ 128 - 1 := by decide

theorem fieldOrder_factors :
    fieldOrder = 3 * 5 * 17 * 257 * 641 * 65537 * 274177 * 6700417 * 67280421310721 := by decide

theorem prime_dvd_fieldOrder (q : Nat) (hq : q.Prime) (hdvd : q ∣ fieldOrder) :
    q = 3 ∨ q = 5 ∨ q = 17 ∨ q = 257 ∨ q = 641 ∨ q = 65537 ∨ q = 274177 ∨ q = 6700417 ∨
      q = 67280421310721 := by
  rw [fieldOrder_factors] at hdvd
  have key : ∀ {a b : Nat}, b.Prime → q ∣ a * b → q ∣ a ∨ q = b := fun hb h =>
    ((Nat.Prime.dvd_mul hq).mp h).imp id (Nat.prime_dvd_prime_iff_eq hq hb).mp
  have h9 := key prime_67280421310721 hdvd
  have h8 : q ∣ 3 * 5 * 17 * 257 * 641 * 65537 * 274177 * 6700417 →
      q ∣ 3 * 5 * 17 * 257 * 641 * 65537 * 274177 ∨ q = 6700417 := key (by norm_num)
  have h7 : q ∣ 3 * 5 * 17 * 257 * 641 * 65537 * 274177 →
      q ∣ 3 * 5 * 17 * 257 * 641 * 65537 ∨ q = 274177 := key (by norm_num)
  have h6 : q ∣ 3 * 5 * 17 * 257 * 641 * 65537 → q ∣ 3 * 5 * 17 * 257 * 641 ∨ q = 65537 :=
    key (by norm_num)
  have h5 : q ∣ 3 * 5 * 17 * 257 * 641 → q ∣ 3 * 5 * 17 * 257 ∨ q = 641 := key (by norm_num)
  have h4 : q ∣ 3 * 5 * 17 * 257 → q ∣ 3 * 5 * 17 ∨ q = 257 := key (by norm_num)
  have h3 : q ∣ 3 * 5 * 17 → q ∣ 3 * 5 ∨ q = 17 := key (by norm_num)
  have h2 : q ∣ 3 * 5 → q ∣ 3 ∨ q = 5 := key (by norm_num)
  have h1 : q ∣ 3 → q = 3 := (Nat.prime_dvd_prime_iff_eq hq (by norm_num)).mp
  rcases h9 with h | h
  · rcases h8 h with h | h
    · rcases h7 h with h | h
      · rcases h6 h with h | h
        · rcases h5 h with h | h
          · rcases h4 h with h | h
            · rcases h3 h with h | h
              · rcases h2 h with h | h
                · simp [h1 h]
                · simp [h]
              · simp [h]
            · simp [h]
          · simp [h]
        · simp [h]
      · simp [h]
    · simp [h]
  · simp [h]

theorem cofactor_3 : pw (fieldOrder / 3) ≠ 2 ^ 127 := by
  have h : fieldOrder / 3 = 18446744073709551617 * 4294967297 * 1431655765 := by decide
  rw [h]
  exact pw_ne_of_gpow _ _ 32 _ pw_high_plus (by decide) (by decide!)

theorem cofactor_5 : pw (fieldOrder / 5) ≠ 2 ^ 127 := by
  have h : fieldOrder / 5 = 18446744073709551617 * 4294967297 * 858993459 := by decide
  rw [h]
  exact pw_ne_of_gpow _ _ 32 _ pw_high_plus (by decide) (by decide!)

theorem cofactor_17 : pw (fieldOrder / 17) ≠ 2 ^ 127 := by
  have h : fieldOrder / 17 = 18446744073709551617 * 4294967297 * 252645135 := by decide
  rw [h]
  exact pw_ne_of_gpow _ _ 32 _ pw_high_plus (by decide) (by decide!)

theorem cofactor_257 : pw (fieldOrder / 257) ≠ 2 ^ 127 := by
  have h : fieldOrder / 257 = 18446744073709551617 * 4294967297 * 16711935 := by decide
  rw [h]
  exact pw_ne_of_gpow _ _ 32 _ pw_high_plus (by decide) (by decide!)

theorem cofactor_65537 : pw (fieldOrder / 65537) ≠ 2 ^ 127 := by
  have h : fieldOrder / 65537 = 18446744073709551617 * 4294967297 * 65535 := by decide
  rw [h]
  exact pw_ne_of_gpow _ _ 32 _ pw_high_plus (by decide) (by decide!)

theorem cofactor_641 : pw (fieldOrder / 641) ≠ 2 ^ 127 := by
  have h : fieldOrder / 641 = 18446744073709551617 * 4294967295 * 6700417 := by decide
  rw [h]
  exact pw_ne_of_gpow _ _ 23 _ pw_high_minus (by decide) (by decide!)

theorem cofactor_6700417 : pw (fieldOrder / 6700417) ≠ 2 ^ 127 := by
  have h : fieldOrder / 6700417 = 18446744073709551617 * 4294967295 * 641 := by decide
  rw [h]
  exact pw_ne_of_gpow _ _ 10 _ pw_high_minus (by decide) (by decide!)

theorem cofactor_274177 : pw (fieldOrder / 274177) ≠ 2 ^ 127 := by
  have h : fieldOrder / 274177 = 18446744073709551615 * 67280421310721 := by decide
  rw [h]
  exact pw_ne_of_gpow _ _ 47 _ pw_low (by decide) (by decide!)

theorem cofactor_67280421310721 : pw (fieldOrder / 67280421310721) ≠ 2 ^ 127 := by
  have h : fieldOrder / 67280421310721 = 18446744073709551615 * 274177 := by decide
  rw [h]
  exact pw_ne_of_gpow _ _ 19 _ pw_low (by decide) (by decide!)

theorem pw_cofactor_ne (q : Nat) (hq : q.Prime) (hdvd : q ∣ fieldOrder) :
    pw (fieldOrder / q) ≠ 2 ^ 127 := by
  rcases prime_dvd_fieldOrder q hq hdvd with h | h | h | h | h | h | h | h | h <;> rw [h]
  · exact cofactor_3
  · exact cofactor_5
  · exact cofactor_17
  · exact cofactor_257
  · exact cofactor_641
  · exact cofactor_65537
  · exact cofactor_274177
  · exact cofactor_6700417
  · exact cofactor_67280421310721

theorem pw_periodic (d : Nat) (hd : pw d = 2 ^ 127) : Function.Periodic pw d := by
  intro n
  rw [pw, Function.iterate_add_apply]
  rw [pw] at hd
  rw [hd]
  rfl

theorem pw_mul_period (d : Nat) (hd : pw d = 2 ^ 127) (k : Nat) : pw (d * k) = 2 ^ 127 := by
  induction k with
  | zero => rfl
  | succ k ih =>
    rw [Nat.mul_succ, pw_periodic d hd, ih]

theorem pw_gcd (a b : Nat) : pw a = 2 ^ 127 → pw b = 2 ^ 127 → pw (Nat.gcd a b) = 2 ^ 127 := by
  induction a, b using Nat.gcd.induction with
  | H0 n =>
    intro _ hn
    rw [Nat.gcd_zero_left]
    exact hn
  | H1 m n _ ih =>
    intro hm hn
    rw [Nat.gcd_rec]
    exact ih (by rw [(pw_periodic m hm).map_mod_nat]; exact hn) hm

theorem pw_ne_unit (d : Nat) (hpos : 0 < d) (hlt : d < fieldOrder) : pw d ≠ 2 ^ 127 := by
  intro hd
  have hg := pw_gcd d fieldOrder hd pw_fieldOrder
  have hgd : Nat.gcd d fieldOrder ∣ d := Nat.gcd_dvd_left _ _
  have hgN : Nat.gcd d fieldOrder ∣ fieldOrder := Nat.gcd_dvd_right _ _
  have hgpos : 0 < Nat.gcd d fieldOrder := Nat.gcd_pos_of_pos_left _ hpos
  have hgle : Nat.gcd d fieldOrder ≤ d := Nat.le_of_dvd hpos hgd
  generalize Nat.gcd d fieldOrder = g at hg hgN hgpos hgle
  obtain ⟨m, hm⟩ := hgN
  have hm1 : m ≠ 1 := by
    rintro rfl
    rw [Nat.mul_one] at hm
    omega
  obtain ⟨q, hq, k, hk⟩ := Nat.exists_prime_and_dvd hm1
  have hN : fieldOrder = q * (g * k) := by
    rw [hm, hk]
    ring
  apply pw_cofactor_ne q hq ⟨g * k, hN⟩
  have hdiv : fieldOrder / q = g * k := Nat.div_eq_of_eq_mul_right hq.pos hN
  rw [hdiv]
  exact pw_mul_period _ hg k

theorem pw_ne_zero (k : Nat) : pw k ≠ 0 := by
  intro h
  have := mulX_iterate_eq_zero k (2 ^ 127) (by norm_num) h
  norm_num at this

theorem pw_injOn : Set.InjOn pw (Finset.range fieldOrder : Set Nat) := by
  have key : ∀ i j, i < j → j < fieldOrder → pw i ≠ pw j := by
    intro i j hij hj heq
    have hsplit : pw j = mulX^[i] (pw (j - i)) := by
      rw [pw, pw, ← Function.iterate_add_apply]
      congr 1
      omega
    rw [hsplit, pw] at heq
    have h1 := mulX_iterate_inj i _ _ (by norm_num) (pw_lt (j - i)) heq
    exact pw_ne_unit (j - i) (by omega) (by omega) h1.symm
  intro i hi j hj heq
  simp only [Finset.coe_range, Set.mem_Iio] at hi hj
  rcases Nat.lt_trichotomy i j with h | h | h
  · exact absurd heq (key i j h hj)
  · exact h
  · exact absurd heq.symm (key j i h hi)

theorem exists_pw (y : Nat) (hy : y < 2 ^ 128) (h0 : y ≠ 0) : ∃ k, pw k = y := by
  have hsub : (Finset.range fieldOrder).image pw ⊆ (Finset.range (2 ^ 128)).erase 0 := by
    intro z hz
    obtain ⟨k, _, rfl⟩ := Finset.mem_image.mp hz
    exact Finset.mem_erase.mpr ⟨pw_ne_zero k, Finset.mem_range.mpr (pw_lt k)⟩
  have hcard : ((Finset.range (2 ^ 128)).erase 0).card ≤
      ((Finset.range fieldOrder).image pw).card := by
    rw [Finset.card_image_of_injOn pw_injOn, Finset.card_range,
      Finset.card_erase_of_mem (Finset.mem_range.mpr (by norm_num)), Finset.card_range,
      fieldOrder_eq]
  have heq := Finset.eq_of_subset_of_card_le hsub hcard
  have hmem : y ∈ (Finset.range (2 ^ 128)).erase 0 :=
    Finset.mem_erase.mpr ⟨h0, Finset.mem_range.mpr hy⟩
  rw [← heq] at hmem
  obtain ⟨k, _, hk⟩ := Finset.mem_image.mp hmem
  exact ⟨k, hk⟩

/-- The product of GF(2^128) has no zero divisor: `gcmMul x h = 0` with `h` non-zero forces
`x = 0`. This is the irreducibility of `x^128 + x^7 + x^2 + x + 1`, obtained from the fact
that `x` generates all `2^128 - 1` non-zero elements. -/
theorem noZeroDivisor_of_ne_zero (h : Nat) (hh : h < 2 ^ 128) (h0 : h ≠ 0) :
    NoZeroDivisor h := by
  intro x hx hx0
  obtain ⟨k, rfl⟩ := exists_pw h hh h0
  rw [gcmMul_pw x k hx] at hx0
  exact mulX_iterate_eq_zero k x hx hx0

end cipher

namespace aes_gcm

open base64 cipher

theorem NewCipher_key (key : Key32) : aes.NewCipher key.val = .ok ⟨aes.expandKeyGo key.val⟩ := by
  simp [aes.NewCipher, key.property]

theorem NewGCM_ok (block : aes.Block) : cipher.NewGCM block = .ok ⟨block⟩ := by
  simp [cipher.NewGCM, aes.BlockSize, gcmBlockSize]

theorem Encrypt_eq (a : AESGCM) (key : Key32) (rest : List Key32) (p n : List Byte)
    (hk : a.keys = key :: rest) (hn : n.length = 12) (hp : p.length ≤ maxPlaintext) :
    Encrypt a p (.ok n) = .ok (EncodeToString (n ++ sealed (gcmOf key) n p)) := by
  simp only [Encrypt, hk, NewCipher_key, NewGCM_ok]
  rw [Seal_eq _ _ _ _ hn hp]
  rfl

theorem Encrypt_too_large (a : AESGCM) (key : Key32) (rest : List Key32) (p n : List Byte)
    (hk : a.keys = key :: rest) (hn : n.length = 12) (hp : maxPlaintext < p.length) :
    Encrypt a p (.ok n) = .panic "crypto/cipher: message too large for GCM" := by
  simp only [Encrypt, hk, NewCipher_key, NewGCM_ok]
  rw [Seal_too_large _ _ _ _ hn hp]

theorem decrypt_eq (a : AESGCM) (s : List Byte) (key : Key32) :
    decrypt a s key =
      match DecodeString s with
      | .error e => .err e
      | .ok raw =>
        if raw.length < 12 then .err (.errorString "malformed ciphertext")
        else (gcmOf key).Open [] (raw.take 12) (raw.drop 12) [] := by
  simp only [decrypt, NewCipher_key, NewGCM_ok]
  rfl

theorem decrypt_ne_panic (a : AESGCM) (s : List Byte) (key : Key32) (msg : String) :
    decrypt a s key ≠ .panic msg := by
  rw [decrypt_eq]
  cases h : DecodeString s with
  | error e => simp
  | ok raw =>
    simp only
    split
    · simp
    · rename_i hlen
      have h12 : (raw.take 12).length = 12 := by rw [List.length_take]; omega
      rw [gcm.Open]
      simp only [gcm.NonceSize, gcmStandardNonceSize, h12, ne_eq, not_true_eq_false, if_false]
      split
      · simp
      · split
        · simp
        · split <;> simp

theorem decrypt_encrypted (a : AESGCM) (key : Key32) (p n : List Byte)
    (hn : n.length = 12) (hp : p.length ≤ maxPlaintext) :
    decrypt a (EncodeToString (n ++ sealed (gcmOf key) n p)) key = .ok p := by
  rw [decrypt_eq, DecodeString_EncodeToString]
  have h1 : ¬ (n ++ sealed (gcmOf key) n p).length < 12 := by
    rw [List.length_append, hn]; omega
  have h2 : (n ++ sealed (gcmOf key) n p).take 12 = n := by
    rw [← hn, List.take_left']
    rfl
  have h3 : (n ++ sealed (gcmOf key) n p).drop 12 = sealed (gcmOf key) n p := by
    rw [← hn, List.drop_left']
    rfl
  simp only [h1, if_false, h2, h3]
  exact Open_sealed _ _ _ hn hp

/-- A list splits at an index it has: the elements before, the element, the elements after;
and every element before sits at a smaller index. -/
theorem split_at_index {α : Type} : ∀ (l : List α) (i : Nat) (v : α), l[i]? = some v →
    ∃ pre post, l = pre ++ v :: post ∧ pre.length = i ∧
      ∀ w ∈ pre, ∃ j, j < i ∧ l[j]? = some w
  | [], i, v, h => by simp at h
  | x :: l, 0, v, h => by
    simp at h
    exact ⟨[], l, by simp [h], rfl, by simp⟩
  | x :: l, i + 1, v, h => by
    simp at h
    obtain ⟨pre, post, hl, hlen, hmem⟩ := split_at_index l i v h
    refine ⟨x :: pre, post, by simp [hl], by simp [hlen], ?_⟩
    intro w hw
    rcases List.mem_cons.mp hw with rfl | hw
    · exact ⟨0, by omega, by simp⟩
    · obtain ⟨j, hj, hjw⟩ := hmem w hw
      exact ⟨j + 1, by omega, by simpa using hjw⟩

theorem convertKey_ok (v : List Byte) (h : v.length = 32) : convertKey v = .ok ⟨v, h⟩ := by
  have h32 : 32 ≤ v.length := by omega
  simp only [convertKey, h32, dite_true]
  congr 1
  apply Subtype.ext
  simp [List.take_of_length_le (Nat.le_of_eq h)]

theorem newLoop_good : ∀ (keys : List (List Byte)) (i : Nat) (acc : List Key32),
    (∀ v ∈ keys, v.length = 32) →
    ∃ ks : List Key32, newLoop keys i acc = .ok (acc ++ ks) ∧ ks.map Subtype.val = keys
  | [], i, acc, _ => ⟨[], by simp [newLoop], rfl⟩
  | v :: rest, i, acc, h => by
    have hv : v.length = 32 := h v (by simp)
    obtain ⟨ks, hks, hmap⟩ := newLoop_good rest (i + 1) (acc ++ [⟨v, hv⟩])
      (fun w hw => h w (by simp [hw]))
    refine ⟨⟨v, hv⟩ :: ks, ?_, by simp [hmap]⟩
    rw [newLoop]
    simp only [hv, ne_eq, not_true_eq_false, if_false, convertKey_ok v hv]
    rw [hks]
    simp

theorem newLoop_bad : ∀ (pre : List (List Byte)) (v : List Byte) (post : List (List Byte))
    (i : Nat) (acc : List Key32), (∀ w ∈ pre, w.length = 32) → v.length ≠ 32 →
    newLoop (pre ++ v :: post) i acc =
      .err (.errorString ("Key Nr. " ++ toString (i + pre.length) ++
        " has the wrong length. Is " ++ toString v.length ++ " but needs to be 32."))
  | [], v, post, i, acc, _, hv => by
    simp [newLoop, hv]
  | w :: pre, v, post, i, acc, h, hv => by
    have hw : w.length = 32 := h w (by simp)
    have ih := newLoop_bad pre v post (i + 1) (acc ++ [⟨w, hw⟩])
      (fun u hu => h u (by simp [hu])) hv
    rw [List.cons_append, newLoop]
    simp only [hw, ne_eq, not_true_eq_false, if_false, convertKey_ok w hw]
    rw [ih]
    simp only [List.length_cons]
    rw [show i + 1 + pre.length = i + (pre.length + 1) by omega]

/-- The first key of wrong length, when there is one: the list splits around it. -/
theorem first_bad : ∀ (keys : List (List Byte)), (∃ v ∈ keys, v.length ≠ 32) →
    ∃ pre v post, keys = pre ++ v :: post ∧ (∀ w ∈ pre, w.length = 32) ∧ v.length ≠ 32
  | [], h => by simp at h
  | x :: keys, h => by
    by_cases hx : x.length = 32
    · have h2 : ∃ v ∈ keys, v.length ≠ 32 := by
        obtain ⟨v, hv, hbad⟩ := h
        rcases List.mem_cons.mp hv with rfl | hv
        · exact absurd hx hbad
        · exact ⟨v, hv, hbad⟩
      obtain ⟨pre, v, post, hk, hpre, hv⟩ := first_bad keys h2
      refine ⟨x :: pre, v, post, by simp [hk], ?_, hv⟩
      intro w hw
      rcases List.mem_cons.mp hw with rfl | hw
      · exact hx
      · exact hpre w hw
    · exact ⟨[], x, keys, rfl, by simp, hx⟩

theorem NewAESGCM_good (keys : List (List Byte)) (hne : keys ≠ [])
    (h : ∀ v ∈ keys, v.length = 32) :
    ∃ m : AESGCM, NewAESGCM keys = .ok m ∧ m.keys.map Subtype.val = keys := by
  obtain ⟨ks, hks, hmap⟩ := newLoop_good keys 0 [] h
  refine ⟨⟨ks⟩, ?_, hmap⟩
  have hlen : ¬ keys.length < 1 := by
    cases keys with
    | nil => exact absurd rfl hne
    | cons _ _ => simp
  simp only [NewAESGCM, hlen, if_false, hks, List.nil_append]

theorem NewAESGCM_bad (pre : List (List Byte)) (v : List Byte) (post : List (List Byte))
    (hpre : ∀ w ∈ pre, w.length = 32) (hv : v.length ≠ 32) :
    NewAESGCM (pre ++ v :: post) =
      .err (.errorString ("Key Nr. " ++ toString pre.length ++
        " has the wrong length. Is " ++ toString v.length ++ " but needs to be 32.")) := by
  have hlen : ¬ (pre ++ v :: post).length < 1 := by simp
  simp only [NewAESGCM, hlen, if_false, newLoop_bad pre v post 0 [] hpre hv, Nat.zero_add]

theorem NewAESGCM_nil :
    NewAESGCM [] = .err (.errorString "At least one encryption key must be provided.") := by
  simp [NewAESGCM]

theorem NewAESGCM_ok_inv (keys : List (List Byte)) (m : AESGCM) (h : NewAESGCM keys = .ok m) :
    keys ≠ [] ∧ (∀ v ∈ keys, v.length = 32) ∧ m.keys.map Subtype.val = keys := by
  have hne : keys ≠ [] := by
    rintro rfl
    rw [NewAESGCM_nil] at h
    cases h
  have hall : ∀ v ∈ keys, v.length = 32 := by
    by_contra hcon
    push_neg at hcon
    obtain ⟨pre, v, post, hk, hpre, hv⟩ := first_bad keys hcon
    rw [hk, NewAESGCM_bad pre v post hpre hv] at h
    cases h
  obtain ⟨m2, hm2, hmap⟩ := NewAESGCM_good keys hne hall
  rw [hm2] at h
  cases h
  exact ⟨hne, hall, hmap⟩

theorem keys_ne_nil_of_ok (keys : List (List Byte)) (m : AESGCM) (h : NewAESGCM keys = .ok m) :
    ∃ key rest, m.keys = key :: rest := by
  obtain ⟨hne, _, hmap⟩ := NewAESGCM_ok_inv keys m h
  cases hk : m.keys with
  | nil => rw [hk] at hmap; exact absurd hmap.symm hne
  | cons key rest => exact ⟨key, rest, rfl⟩

theorem decryptLoop_hit (a : AESGCM) (s : List Byte) (key : Key32) (post : List Key32)
    (p : List Byte) (hkey : decrypt a s key = .ok p) :
    ∀ (pre : List Key32) (err : Option Error),
      (∀ k ∈ pre, ∀ q, decrypt a s k = .ok q → q = p) →
      decryptLoop a s (pre ++ key :: post) err = .ok p
  | [], err, _ => by
    rw [List.nil_append, decryptLoop, hkey]
  | w :: pre, err, h => by
    rw [List.cons_append, decryptLoop]
    cases hw : decrypt a s w with
    | ok q => rw [h w (by simp) q hw]
    | err e => exact decryptLoop_hit a s key post p hkey pre (some e) (fun k hk => h k (by simp [hk]))
    | panic msg => exact absurd hw (decrypt_ne_panic a s w msg)

theorem decryptLoop_miss (a : AESGCM) (s : List Byte) :
    ∀ (keys : List Key32) (hne : keys ≠ []) (err : Option Error),
      (∀ k ∈ keys, ∀ q, decrypt a s k ≠ .ok q) →
      ∃ e, decrypt a s (keys.getLast hne) = .err e ∧ decryptLoop a s keys err = .err e
  | [], hne, _, _ => absurd rfl hne
  | [k], _, err, h => by
    cases hk : decrypt a s k with
    | ok q => exact absurd hk (h k (by simp) q)
    | err e => exact ⟨e, by simpa using hk, by simp [decryptLoop, hk]⟩
    | panic msg => exact absurd hk (decrypt_ne_panic a s k msg)
  | k :: k2 :: rest, _, err, h => by
    cases hk : decrypt a s k with
    | ok q => exact absurd hk (h k (by simp) q)
    | err e1 =>
      obtain ⟨e, he1, he2⟩ := decryptLoop_miss a s (k2 :: rest) (by simp) (some e1)
        (fun k' hk' => h k' (by simp [List.mem_cons.mp hk']))
      refine ⟨e, by simpa using he1, ?_⟩
      rw [decryptLoop, hk]
      exact he2
    | panic msg => exact absurd hk (decrypt_ne_panic a s k msg)

/-! ### Construction: claims C3, C4, C8 -/

/-- Claim C3. `NewAESGCM` returns an error exactly when the key list is empty or holds a key
whose length is not 32 bytes; on a non-empty list of 32-byte keys it returns a manager with a
nil error; and it never panics. -/
theorem C3_NewAESGCM_error_iff (keys : List (List Byte)) :
    ((∃ e, NewAESGCM keys = .err e) ↔ (keys = [] ∨ ∃ v ∈ keys, v.length ≠ 32)) ∧
    ((keys ≠ [] ∧ ∀ v ∈ keys, v.length = 32) → ∃ m, NewAESGCM keys = .ok m) ∧
    (∀ msg, NewAESGCM keys ≠ .panic msg) := by
  by_cases hne : keys = []
  · subst hne
    rw [NewAESGCM_nil]
    exact ⟨⟨fun _ => Or.inl rfl, fun _ => ⟨_, rfl⟩⟩, fun h => absurd rfl h.1, fun _ h => by cases h⟩
  · by_cases hbad : ∃ v ∈ keys, v.length ≠ 32
    · obtain ⟨pre, v, post, hk, hpre, hv⟩ := first_bad keys hbad
      have herr := NewAESGCM_bad pre v post hpre hv
      rw [← hk] at herr
      refine ⟨⟨fun _ => Or.inr hbad, fun _ => ⟨_, herr⟩⟩, ?_, ?_⟩
      · rintro ⟨_, hall⟩
        obtain ⟨w, hw, hwbad⟩ := hbad
        exact absurd (hall w hw) hwbad
      · intro msg h
        rw [herr] at h
        cases h
    · have hall : ∀ v ∈ keys, v.length = 32 := by
        push_neg at hbad
        exact hbad
      obtain ⟨m, hm, _⟩ := NewAESGCM_good keys hne hall
      refine ⟨⟨?_, ?_⟩, fun _ => ⟨m, hm⟩, ?_⟩
      · rintro ⟨e, he⟩
        rw [hm] at he
        cases he
      · rintro (h | h)
        · exact absurd h hne
        · exact absurd h hbad
      · intro msg h
        rw [hm] at h
        cases h

/-- Claim C4. When key number `i` is the first whose length is not 32, the error of
`NewAESGCM` is the message naming `i` and the length of that key. -/
theorem C4_NewAESGCM_reports_first_bad_key (keys : List (List Byte)) (i : Nat) (v : List Byte)
    (hv : keys[i]? = some v) (hbad : v.length ≠ 32)
    (hmin : ∀ j w, j < i → keys[j]? = some w → w.length = 32) :
    NewAESGCM keys = .err (.errorString ("Key Nr. " ++ toString i ++
      " has the wrong length. Is " ++ toString v.length ++ " but needs to be 32.")) := by
  obtain ⟨pre, post, hk, hlen, hmem⟩ := split_at_index keys i v hv
  have hpre : ∀ w ∈ pre, w.length = 32 := by
    intro w hw
    obtain ⟨j, hj, hjw⟩ := hmem w hw
    exact hmin j w hj hjw
  have h := NewAESGCM_bad pre v post hpre hbad
  rw [hlen, ← hk] at h
  exact h

/-- Witness of claim C4: the second of two keys has 3 bytes. -/
theorem C4_witness :
    NewAESGCM [keyA.val, bytesOf "abc"] =
      .err (.errorString "Key Nr. 1 has the wrong length. Is 3 but needs to be 32.") :=
  C4_NewAESGCM_reports_first_bad_key [keyA.val, bytesOf "abc"] 1 (bytesOf "abc") rfl
    (by decide) (by
      intro j w hj hw
      have hj0 : j = 0 := by omega
      subst hj0
      simp at hw
      subst hw
      exact keyA.property)

/-- Claim C8. A manager returned by `NewAESGCM` holds the input keys unchanged and in order:
as many keys as given, at least one, and key number `i` is the `i`-th input string. -/
theorem C8_NewAESGCM_stores_keys (keys : List (List Byte)) (m : AESGCM)
    (h : NewAESGCM keys = .ok m) :
    m.keys.length = keys.length ∧ m.keys ≠ [] ∧ m.keys.map Subtype.val = keys ∧
      (∀ i : Nat, (m.keys[i]?).map Subtype.val = keys[i]?) ∧ ∀ k ∈ m.keys, k.val.length = 32 := by
  obtain ⟨hne, _, hmap⟩ := NewAESGCM_ok_inv keys m h
  refine ⟨?_, ?_, hmap, ?_, fun k _ => k.property⟩
  · rw [← hmap, List.length_map]
  · intro hnil
    rw [hnil] at hmap
    exact hne hmap.symm
  · intro i
    rw [← List.getElem?_map, hmap]

/-- Witness of claim C8: the list `[keyA, keyB]` is accepted and stored as it is. -/
theorem C8_witness :
    NewAESGCM [keyA.val, keyB.val] = .ok managerAB ∧
      managerAB.keys.map Subtype.val = [keyA.val, keyB.val] :=
  have h : NewAESGCM [keyA.val, keyB.val] = .ok managerAB := by decide
  ⟨h, (C8_NewAESGCM_stores_keys _ _ h).2.2.1⟩

/-! ### Decryption order and malformed input: claims C5, C6 -/

/-- Claim C5. `Decrypt` tries the keys in list order: when key number `i` opens the string
and no key before it does, `Decrypt` returns the plaintext of key number `i` with a nil error;
when no key opens the string (and there is a key), `Decrypt` returns the error of the attempt
with the last key. -/
theorem C5_Decrypt_first_success_or_last_error (a : AESGCM) (s : List Byte) :
    (∀ (i : Nat) (key : Key32) (p : List Byte), a.keys[i]? = some key →
      decrypt a s key = .ok p →
      (∀ (j : Nat) (k : Key32), j < i → a.keys[j]? = some k → ∀ q, decrypt a s k ≠ .ok q) →
      Decrypt a s = .ok p) ∧
    (∀ hne : a.keys ≠ [], (∀ k ∈ a.keys, ∀ q, decrypt a s k ≠ .ok q) →
      ∃ e, decrypt a s (a.keys.getLast hne) = .err e ∧ Decrypt a s = .err e) := by
  constructor
  · intro i key p hkey hp hbefore
    obtain ⟨pre, post, hk, _, hmem⟩ := split_at_index a.keys i key hkey
    rw [Decrypt, hk]
    apply decryptLoop_hit a s key post p hp pre none
    intro k hk q hq
    obtain ⟨j, hj, hjk⟩ := hmem k hk
    exact absurd hq (hbefore j k hj hjk q)
  · intro hne hall
    exact decryptLoop_miss a s a.keys hne none hall

/-- Witness of claim C5: on a string that decodes to three bytes every attempt of the manager
`[keyA, keyB]` fails, and `Decrypt` returns the error of the attempt with `keyB`. -/
theorem C5_witness :
    ∃ e, decrypt managerAB (bytesOf "AAAA") keyB = .err e ∧
      Decrypt managerAB (bytesOf "AAAA") = .err e :=
  (C5_Decrypt_first_success_or_last_error managerAB (bytesOf "AAAA")).2 (by decide) (by
    intro k hk q
    have h1 : decrypt managerAB (bytesOf "AAAA") k = .err (.errorString "malformed ciphertext") := by
      rw [decrypt_eq]
      rfl
    rw [h1]
    simp)

theorem decryptLoop_same_error (a : AESGCM) (s : List Byte) (e : Error) :
    ∀ (keys : List Key32) (err : Option Error), keys ≠ [] →
      (∀ k ∈ keys, decrypt a s k = .err e) → decryptLoop a s keys err = .err e
  | [], _, hne, _ => absurd rfl hne
  | [k], err, _, h => by
    simp [decryptLoop, h k (by simp)]
  | k :: k2 :: rest, err, _, h => by
    rw [decryptLoop, h k (by simp)]
    exact decryptLoop_same_error a s e (k2 :: rest) (some e) (by simp)
      (fun k' hk' => h k' (by simp [List.mem_cons.mp hk']))

/-- Claim C6. On a manager built by `NewAESGCM`, a string that is not valid padded URL-safe
base64 makes `Decrypt` return the decoding error, and a string that decodes to fewer than 12
bytes makes it return the error "malformed ciphertext"; in both cases there is no plaintext
and no panic, whatever the keys are. -/
theorem C6_Decrypt_rejects_malformed (keys : List (List Byte)) (m : AESGCM) (s : List Byte)
    (hm : NewAESGCM keys = .ok m) :
    (∀ e, DecodeString s = .error e → Decrypt m s = .err e) ∧
    (∀ raw, DecodeString s = .ok raw → raw.length < 12 →
      Decrypt m s = .err (.errorString "malformed ciphertext")) := by
  obtain ⟨key, rest, hk⟩ := keys_ne_nil_of_ok keys m hm
  have hne : m.keys ≠ [] := by simp [hk]
  constructor
  · intro e he
    apply decryptLoop_same_error m s e m.keys none hne
    intro k _
    rw [decrypt_eq, he]
  · intro raw hraw hlen
    apply decryptLoop_same_error m s _ m.keys none hne
    intro k _
    rw [decrypt_eq, hraw]
    simp [hlen]

/-- Witness of claim C6: the manager of `[keyA, keyB]` on a string holding `!`, which is not
in the alphabet, and on the encoding of three bytes. -/
theorem C6_witness :
    Decrypt managerAB (bytesOf "AAA!") = .err (.CorruptInputError 3) ∧
      Decrypt managerAB (bytesOf "AAAA") = .err (.errorString "malformed ciphertext") :=
  have h := C6_Decrypt_rejects_malformed [keyA.val, keyB.val] managerAB
  ⟨(h (bytesOf "AAA!") (by decide)).1 _ rfl,
    (h (bytesOf "AAAA") (by decide)).2 [0, 0, 0] rfl (by decide)⟩

/-! ### Encryption and the round trip: claims C1, C7, C10 -/

theorem Decrypt_Encrypt (a : AESGCM) (key : Key32) (rest : List Key32) (p n : List Byte)
    (hk : a.keys = key :: rest) (hn : n.length = 12) (hp : p.length ≤ maxPlaintext) :
    Decrypt a (EncodeToString (n ++ sealed (gcmOf key) n p)) = .ok p := by
  rw [Decrypt, hk]
  exact decryptLoop_hit a _ key rest p (decrypt_encrypted a key p n hn hp) [] none (by simp)

theorem EncodeToString_injective (x y : List Byte) (h : EncodeToString x = EncodeToString y) :
    x = y := by
  have hx := DecodeString_EncodeToString x
  rw [h, DecodeString_EncodeToString] at hx
  cases hx
  rfl

theorem example_too_large : maxPlaintext < (List.replicate 68719476705 (0 : Byte)).length := by
  rw [List.length_replicate]
  decide

/-- Claim C1, as amended. For every key list accepted by `NewAESGCM`, every plaintext of at
most `maxPlaintext` bytes (the empty one included) and every 12-byte nonce, `Encrypt` returns a
string and `Decrypt` of the same manager on that string returns exactly the plaintext. -/
theorem C1_round_trip (keys : List (List Byte)) (m : AESGCM) (p n : List Byte)
    (hm : NewAESGCM keys = .ok m) (hn : n.length = 12) (hp : p.length ≤ maxPlaintext) :
    ∃ s, Encrypt m p (.ok n) = .ok s ∧ Decrypt m s = .ok p := by
  obtain ⟨key, rest, hk⟩ := keys_ne_nil_of_ok keys m hm
  exact ⟨_, Encrypt_eq m key rest p n hk hn hp, Decrypt_Encrypt m key rest p n hk hn hp⟩

/-- Witness of claim C1: the empty plaintext under the manager of `[keyA, keyB]`. -/
theorem C1_witness :
    ∃ s, Encrypt managerAB [] (.ok nonceA) = .ok s ∧ Decrypt managerAB s = .ok [] :=
  C1_round_trip [keyA.val, keyB.val] managerAB [] nonceA (by decide) (by decide) (by decide)

/-- Counterexample to claim C1 as stated: on a plaintext of `maxPlaintext + 1` bytes `Encrypt`
panics inside `Seal`, so there is no string to decrypt. -/
theorem C1_counterexample :
    NewAESGCM [keyA.val] = .ok managerA ∧ nonceA.length = 12 ∧
      Encrypt managerA (List.replicate 68719476705 0) (.ok nonceA) =
        .panic "crypto/cipher: message too large for GCM" :=
  ⟨by decide, by decide, Encrypt_too_large managerA keyA [] _ nonceA rfl (by decide)
    example_too_large⟩

/-- Claim C7, as amended. For a manager whose first key is `key`, a plaintext of at most
`maxPlaintext` bytes and a 12-byte nonce `n`, `Encrypt` returns the padded URL-safe base64
encoding of `n` followed by the AES-GCM sealing of the plaintext under `key` and `n` with no
associated data; the result is the same whatever the other keys are, and it decodes to at
least 12 bytes of which the first 12 are `n`. -/
theorem C7_Encrypt_wire_format (a : AESGCM) (key : Key32) (rest : List Key32)
    (p n : List Byte) (hk : a.keys = key :: rest) (hn : n.length = 12)
    (hp : p.length ≤ maxPlaintext) :
    ∃ block g ct, aes.NewCipher key.val = .ok block ∧ cipher.NewGCM block = .ok g ∧
      g.Seal [] n p [] = .ok ct ∧
      Encrypt a p (.ok n) = .ok (EncodeToString (n ++ ct)) ∧
      (∀ others, Encrypt ⟨key :: others⟩ p (.ok n) = Encrypt a p (.ok n)) ∧
      ∃ raw, DecodeString (EncodeToString (n ++ ct)) = .ok raw ∧ raw.take 12 = n ∧
        12 ≤ raw.length := by
  refine ⟨_, _, sealed (gcmOf key) n p, NewCipher_key key, NewGCM_ok _, ?_,
    Encrypt_eq a key rest p n hk hn hp, ?_, _, DecodeString_EncodeToString _, ?_, ?_⟩
  · rw [Seal_eq _ _ _ _ hn hp]
    rfl
  · intro others
    rw [Encrypt_eq a key rest p n hk hn hp, Encrypt_eq ⟨key :: others⟩ key others p n rfl hn hp]
  · rw [← hn, List.take_left']
    rfl
  · rw [List.length_append, hn]
    omega

/-- Witness of claim C7: five bytes under the manager of `[keyA, keyB]`. -/
theorem C7_witness :
    ∃ block g ct, aes.NewCipher keyA.val = .ok block ∧ cipher.NewGCM block = .ok g ∧
      g.Seal [] nonceA (bytesOf "hello") [] = .ok ct ∧
      Encrypt managerAB (bytesOf "hello") (.ok nonceA) = .ok (EncodeToString (nonceA ++ ct)) ∧
      (∀ others, Encrypt ⟨keyA :: others⟩ (bytesOf "hello") (.ok nonceA) =
        Encrypt managerAB (bytesOf "hello") (.ok nonceA)) ∧
      ∃ raw, DecodeString (EncodeToString (nonceA ++ ct)) = .ok raw ∧ raw.take 12 = nonceA ∧
        12 ≤ raw.length :=
  C7_Encrypt_wire_format managerAB keyA [keyB] (bytesOf "hello") nonceA rfl (by decide)
    (by decide)

/-- Counterexample to claim C7 as stated: on a plaintext of `maxPlaintext + 1` bytes `Encrypt`
returns no string at all. -/
theorem C7_counterexample :
    managerAB.keys = [keyA, keyB] ∧ nonceB.length = 12 ∧
      Encrypt managerAB (List.replicate 68719476705 0) (.ok nonceB) =
        .panic "crypto/cipher: message too large for GCM" ∧
      ∀ s, Encrypt managerAB (List.replicate 68719476705 0) (.ok nonceB) ≠ .ok s := by
  have h := Encrypt_too_large managerAB keyA [keyB] _ nonceB rfl (by decide) example_too_large
  refine ⟨rfl, by decide, h, ?_⟩
  intro s hs
  rw [h] at hs
  cases hs

/-- Claim C10, as amended. For a manager built by `NewAESGCM` and a plaintext of at most
`maxPlaintext` bytes, two calls of `Encrypt` that draw different 12-byte nonces return
different strings, and `Decrypt` returns the plaintext for both. -/
theorem C10_fresh_nonce_fresh_envelope (keys : List (List Byte)) (m : AESGCM)
    (p n1 n2 : List Byte) (hm : NewAESGCM keys = .ok m) (h1 : n1.length = 12)
    (h2 : n2.length = 12) (hne : n1 ≠ n2) (hp : p.length ≤ maxPlaintext) :
    ∃ s1 s2, Encrypt m p (.ok n1) = .ok s1 ∧ Encrypt m p (.ok n2) = .ok s2 ∧ s1 ≠ s2 ∧
      Decrypt m s1 = .ok p ∧ Decrypt m s2 = .ok p := by
  obtain ⟨key, rest, hk⟩ := keys_ne_nil_of_ok keys m hm
  refine ⟨_, _, Encrypt_eq m key rest p n1 hk h1 hp, Encrypt_eq m key rest p n2 hk h2 hp, ?_,
    Decrypt_Encrypt m key rest p n1 hk h1 hp, Decrypt_Encrypt m key rest p n2 hk h2 hp⟩
  intro heq
  have hraw := EncodeToString_injective _ _ heq
  exact hne (List.append_inj hraw (by rw [h1, h2])).1

/-- Witness of claim C10: the nonces `nonceA` and `nonceB` under the manager of
`[keyA, keyB]`. -/
theorem C10_witness :
    ∃ s1 s2, Encrypt managerAB (bytesOf "hello") (.ok nonceA) = .ok s1 ∧
      Encrypt managerAB (bytesOf "hello") (.ok nonceB) = .ok s2 ∧ s1 ≠ s2 ∧
      Decrypt managerAB s1 = .ok (bytesOf "hello") ∧
      Decrypt managerAB s2 = .ok (bytesOf "hello") :=
  C10_fresh_nonce_fresh_envelope [keyA.val, keyB.val] managerAB (bytesOf "hello") nonceA nonceB
    (by decide) (by decide) (by decide) (by decide) (by decide)

/-- Counterexample to claim C10 as stated: on a plaintext of `maxPlaintext + 1` bytes both
calls panic, whatever nonce they draw, and no string is returned. -/
theorem C10_counterexample :
    NewAESGCM [keyA.val, keyB.val] = .ok managerAB ∧ nonceA ≠ nonceB ∧
      Encrypt managerAB (List.replicate 68719476705 0) (.ok nonceA) =
        .panic "crypto/cipher: message too large for GCM" ∧
      Encrypt managerAB (List.replicate 68719476705 0) (.ok nonceB) =
        .panic "crypto/cipher: message too large for GCM" :=
  ⟨by decide, by decide,
    Encrypt_too_large managerAB keyA [keyB] _ nonceA rfl (by decide) example_too_large,
    Encrypt_too_large managerAB keyA [keyB] _ nonceB rfl (by decide) example_too_large⟩

/-! ### Several keys: claims C2, C9 -/

/-- Claim C2, as amended. Let `M1` be a manager whose first key is `key` and `M2` a manager in
whose list `key` appears after the keys `pre`. For a plaintext `p` of at most `maxPlaintext`
bytes and a 12-byte nonce, `M1` encrypts `p` to a string on which `M2` returns `p`, provided no
key of `pre` opens that string to something other than `p`. -/
theorem C2_rotation_recovers_plaintext (M1 M2 : AESGCM) (key : Key32)
    (rest pre post : List Key32) (p n : List Byte) (h1 : M1.keys = key :: rest)
    (h2 : M2.keys = pre ++ key :: post) (hn : n.length = 12) (hp : p.length ≤ maxPlaintext) :
    ∃ s, Encrypt M1 p (.ok n) = .ok s ∧
      ((∀ k ∈ pre, ∀ q, decrypt M2 s k = .ok q → q = p) → Decrypt M2 s = .ok p) := by
  refine ⟨_, Encrypt_eq M1 key rest p n h1 hn hp, ?_⟩
  intro hpre
  rw [Decrypt, h2]
  exact decryptLoop_hit M2 _ key post p (decrypt_encrypted M2 key p n hn hp) pre none hpre

/-- Witness of claim C2: the manager of `[keyB, keyA]` recovers `hello` from the string that
the manager of `[keyA, keyB]` made of it; the attempt with `keyB` fails. -/
theorem C2_witness :
    ∃ s, Encrypt managerAB (bytesOf "hello") (.ok nonceA) = .ok s ∧
      Decrypt managerBA s = .ok (bytesOf "hello") := by
  obtain ⟨s, hs, hdec⟩ := C2_rotation_recovers_plaintext managerAB managerBA keyA [keyB] [keyB]
    [] (bytesOf "hello") nonceA rfl rfl (by decide) (by decide)
  refine ⟨s, hs, hdec ?_⟩
  have hs2 : Encrypt managerAB (bytesOf "hello") (.ok nonceA) =
      .ok (bytesOf "YWJjZGVmZ2hpamtsAaml06QGnaFchNUZ_8hG4RRmkGD_") := by decide!
  rw [hs2] at hs
  cases hs
  intro k hk q hq
  have hkB : k = keyB := by simpa using hk
  subst hkB
  have hfail : decrypt managerBA (bytesOf "YWJjZGVmZ2hpamtsAaml06QGnaFchNUZ_8hG4RRmkGD_") keyB =
      .err errOpen := by decide!
  rw [hfail] at hq
  cases hq

/-- Counterexample to claim C2 as stated: the manager of `[keyA, keyB]` encrypts
`plainTwoKeys` with `nonceA`, and the manager of `[keyB, keyA]` decrypts the result, without
error, to the different plaintext `otherTwoKeys`: the tag also verifies under `keyB`. -/
theorem C2_counterexample :
    NewAESGCM [keyA.val, keyB.val] = .ok managerAB ∧
      NewAESGCM [keyB.val, keyA.val] = .ok managerBA ∧
      Encrypt managerAB plainTwoKeys (.ok nonceA) = .ok envelopeTwoKeys ∧
      Decrypt managerBA envelopeTwoKeys = .ok otherTwoKeys ∧
      otherTwoKeys ≠ plainTwoKeys := by
  refine ⟨by decide, by decide, by decide!, by decide!, by decide⟩

theorem Open_wrong_tag (g : gcm) (n ct tag : List Byte) (hn : n.length = 12)
    (ht : tag.length = 16) (hc : ct.length ≤ maxPlaintext)
    (hne : g.auth ct [] (g.cipher.Encrypt (deriveCounter n)) ≠ tag) :
    g.Open [] n (ct ++ tag) [] = .err errOpen := by
  have hl : (ct ++ tag).length = ct.length + 16 := by rw [List.length_append, ht]
  have hdrop : (ct ++ tag).drop ((ct ++ tag).length - gcmTagSize) = tag := by
    rw [hl]
    simp [gcmTagSize]
  have htake : (ct ++ tag).take ((ct ++ tag).length - gcmTagSize) = ct := by
    rw [hl]
    simp [gcmTagSize]
  rw [gcm.Open]
  simp only [gcm.NonceSize, gcmStandardNonceSize, hn, ne_eq, not_true_eq_false, if_false]
  rw [if_neg (by rw [hl]; simp [gcmTagSize]), if_neg (by rw [hl]; simp [gcmTagSize]; omega)]
  simp only [hdrop, htake]
  rw [if_pos hne]

theorem hashSubkey_lt (key : Key32) : hashSubkey key < 2 ^ 128 :=
  aes.encryptBlockGo_lt _ (aes.expandKeyGo_words32 _) _

theorem Open_right_tag (g : gcm) (n ct : List Byte) (hn : n.length = 12)
    (hc : ct.length ≤ maxPlaintext) :
    g.Open [] n (ct ++ g.auth ct [] (g.cipher.Encrypt (deriveCounter n))) [] =
      .ok (g.counterCrypt ct (gcmInc32 (deriveCounter n))) := by
  have hl : (ct ++ g.auth ct [] (g.cipher.Encrypt (deriveCounter n))).length =
      ct.length + 16 := by
    rw [List.length_append, auth_length]
  have hdrop : (ct ++ g.auth ct [] (g.cipher.Encrypt (deriveCounter n))).drop
      ((ct ++ g.auth ct [] (g.cipher.Encrypt (deriveCounter n))).length - gcmTagSize) =
      g.auth ct [] (g.cipher.Encrypt (deriveCounter n)) := by
    rw [hl]
    simp [gcmTagSize]
  have htake : (ct ++ g.auth ct [] (g.cipher.Encrypt (deriveCounter n))).take
      ((ct ++ g.auth ct [] (g.cipher.Encrypt (deriveCounter n))).length - gcmTagSize) = ct := by
    rw [hl]
    simp [gcmTagSize]
  rw [gcm.Open]
  simp only [gcm.NonceSize, gcmStandardNonceSize, hn, ne_eq, not_true_eq_false, if_false]
  rw [if_neg (by rw [hl]; simp [gcmTagSize]), if_neg (by rw [hl]; simp [gcmTagSize]; omega)]
  simp only [hdrop, htake, not_true_eq_false, if_false, List.nil_append]

theorem Open_changed (g : gcm) (n ct : List Byte) (i : Nat) (b : Byte) (hn : n.length = 12)
    (hc : ct.length ≤ maxPlaintext) (hh : g.cipher.Encrypt 0 < 2 ^ 128)
    (hm : g.cipher.Encrypt (deriveCounter n) < 2 ^ 128) (hi : i < ct.length + 16)
    (hb : (ct ++ g.auth ct [] (g.cipher.Encrypt (deriveCounter n)))[i]? ≠ some b)
    (hreg : ct.length ≤ i ∨ g.cipher.Encrypt 0 ≠ 0) :
    g.Open [] n ((ct ++ g.auth ct [] (g.cipher.Encrypt (deriveCounter n))).set i b) [] =
      .err errOpen := by
  by_cases hpos : ct.length ≤ i
  · rw [List.set_append_right _ _ hpos]
    apply Open_wrong_tag _ _ _ _ hn (by rw [List.length_set, auth_length]) hc
    intro heq
    apply hb
    rw [List.getElem?_append_right hpos]
    have hget : (g.auth ct [] (g.cipher.Encrypt (deriveCounter n)))[i - ct.length]? =
        ((g.auth ct [] (g.cipher.Encrypt (deriveCounter n))).set (i - ct.length) b)[
          i - ct.length]? := by
      rw [← heq]
    rw [hget, List.getElem?_set_self (by rw [auth_length]; omega)]
  · have hlt : i < ct.length := by omega
    have hnz : NoZeroDivisor (g.cipher.Encrypt 0) :=
      noZeroDivisor_of_ne_zero _ hh (hreg.resolve_left hpos)
    rw [List.set_append_left _ _ hlt]
    apply Open_wrong_tag _ _ _ _ hn (auth_length _ _ _ _) (by rw [List.length_set]; exact hc)
    have hb2 : ct[i]? ≠ some b := by
      rw [List.getElem?_append_left hlt] at hb
      exact hb
    exact (auth_ne_of_set g ct i b _ hh hnz hm hlt hb2).symm

theorem Open_changed_zero_subkey (g : gcm) (n p : List Byte) (i : Nat) (b : Byte)
    (hn : n.length = 12) (hp : p.length ≤ maxPlaintext) (h0 : g.cipher.Encrypt 0 = 0)
    (hi : i < p.length) (hb : (sealed g n p)[i]? ≠ some b) :
    ∃ q, q ≠ p ∧ g.Open [] n ((sealed g n p).set i b) [] = .ok q := by
  have hcl := counterCrypt_length g p (gcmInc32 (deriveCounter n))
  have hlt : i < (g.counterCrypt p (gcmInc32 (deriveCounter n))).length := by rw [hcl]; exact hi
  have hset : (sealed g n p).set i b =
      (g.counterCrypt p (gcmInc32 (deriveCounter n))).set i b ++
        g.auth ((g.counterCrypt p (gcmInc32 (deriveCounter n))).set i b) []
          (g.cipher.Encrypt (deriveCounter n)) := by
    rw [sealed, List.set_append_left _ _ hlt, auth_of_zero_subkey g _ _ h0,
      auth_of_zero_subkey g _ _ h0]
  refine ⟨g.counterCrypt ((g.counterCrypt p (gcmInc32 (deriveCounter n))).set i b)
    (gcmInc32 (deriveCounter n)), ?_, ?_⟩
  · intro hq
    apply hb
    have h1 := counterCrypt_cancel g ((g.counterCrypt p (gcmInc32 (deriveCounter n))).set i b)
      (gcmInc32 (deriveCounter n))
    rw [hq] at h1
    rw [sealed, List.getElem?_append_left hlt]
    have hget : (g.counterCrypt p (gcmInc32 (deriveCounter n)))[i]? =
        ((g.counterCrypt p (gcmInc32 (deriveCounter n))).set i b)[i]? := by
      rw [← h1]
    rw [hget, List.getElem?_set_self hlt]
  · rw [hset]
    exact Open_right_tag g n _ hn (by rw [List.length_set, hcl]; exact hp)

theorem payload_length (key : Key32) (p n : List Byte) (hn : n.length = 12) :
    (n ++ sealed (gcmOf key) n p).length = 12 + p.length + 16 := by
  rw [List.length_append, sealed_length, hn]
  omega

theorem payload_set (key : Key32) (p n : List Byte) (hn : n.length = 12) (i : Nat) (b : Byte)
    (hi : 12 ≤ i) : (n ++ sealed (gcmOf key) n p).set i b =
      n ++ (sealed (gcmOf key) n p).set (i - 12) b := by
  rw [List.set_append_right _ _ (by rw [hn]; exact hi), hn]

theorem payload_get (key : Key32) (p n : List Byte) (hn : n.length = 12) (i : Nat)
    (hi : 12 ≤ i) : (n ++ sealed (gcmOf key) n p)[i]? = (sealed (gcmOf key) n p)[i - 12]? := by
  rw [List.getElem?_append_right (by rw [hn]; exact hi), hn]

theorem decrypt_payload (a : AESGCM) (key : Key32) (n l : List Byte) (hn : n.length = 12) :
    decrypt a (EncodeToString (n ++ l)) key = (gcmOf key).Open [] n l [] := by
  rw [decrypt_eq, DecodeString_EncodeToString]
  have h1 : ¬ (n ++ l).length < 12 := by
    rw [List.length_append, hn]
    omega
  have h2 : (n ++ l).take 12 = n := by
    rw [← hn, List.take_left']
    rfl
  have h3 : (n ++ l).drop 12 = l := by
    rw [← hn, List.drop_left']
    rfl
  simp only [h1, if_false, h2, h3]

/-- Claim C9, as amended. For a manager whose first key is `key`, a plaintext `p` of at most
`maxPlaintext` bytes and a 12-byte nonce, `Encrypt` returns a string whose decoded payload is
the nonce, the ciphertext and the 16-byte tag. Changing any single byte of the payload after
the nonce and encoding it again gives a string on which the attempt with `key` fails with the
authentication error, for a byte of the tag always and for a byte of the ciphertext when the
hash subkey of `key` is not zero; `Decrypt` then returns an error whenever no other key of
the list opens the changed string. -/
theorem C9_change_rejected_by_sealing_key (a : AESGCM) (key : Key32) (rest : List Key32)
    (p n : List Byte) (hk : a.keys = key :: rest) (hn : n.length = 12)
    (hp : p.length ≤ maxPlaintext) :
    ∃ s raw, Encrypt a p (.ok n) = .ok s ∧ DecodeString s = .ok raw ∧
      raw.length = 12 + p.length + 16 ∧
      ∀ (i : Nat) (b : Byte), 12 ≤ i → i < raw.length → raw[i]? ≠ some b →
        (12 + p.length ≤ i ∨ hashSubkey key ≠ 0) →
        decrypt a (EncodeToString (raw.set i b)) key = .err errOpen ∧
        ((∀ k ∈ rest, ∀ q, decrypt a (EncodeToString (raw.set i b)) k ≠ .ok q) →
          ∃ e, Decrypt a (EncodeToString (raw.set i b)) = .err e) := by
  have hlen := payload_length key p n hn
  have hcl := counterCrypt_length (gcmOf key) p (gcmInc32 (deriveCounter n))
  refine ⟨_, _, Encrypt_eq a key rest p n hk hn hp, DecodeString_EncodeToString _, hlen, ?_⟩
  intro i b hi hi2 hb hreg
  rw [hlen] at hi2
  have hfail : decrypt a (EncodeToString ((n ++ sealed (gcmOf key) n p).set i b)) key =
      .err errOpen := by
    rw [payload_set key p n hn i b hi, decrypt_payload a key n _ hn]
    apply Open_changed (gcmOf key) n _ (i - 12) b hn (by rw [hcl]; exact hp)
      (hashSubkey_lt key) (aes.encryptBlockGo_lt _ (aes.expandKeyGo_words32 _) _)
      (by rw [hcl]; omega)
    · have hb2 := hb
      rw [payload_get key p n hn i hi] at hb2
      exact hb2
    · rcases hreg with h | h
      · exact Or.inl (by rw [hcl]; omega)
      · exact Or.inr h
  refine ⟨hfail, ?_⟩
  intro hrest
  obtain ⟨e, _, he⟩ := decryptLoop_miss a
    (EncodeToString ((n ++ sealed (gcmOf key) n p).set i b)) (key :: rest) (by simp) none (by
      intro k hk2 q
      rcases List.mem_cons.mp hk2 with rfl | hk2
      · rw [hfail]
        simp
      · exact hrest k hk2 q)
  exact ⟨e, by rw [Decrypt, hk]; exact he⟩

/-- The condition on the hash subkey in `C9_change_rejected_by_sealing_key` is exact: were
the hash subkey of the first key zero, every change of a ciphertext byte would go
unnoticed, and `Decrypt` would return a plaintext other than `p` with a nil error. -/
theorem changed_ciphertext_accepted_of_zero_hashSubkey (a : AESGCM) (key : Key32)
    (rest : List Key32) (p n : List Byte) (hk : a.keys = key :: rest) (hn : n.length = 12)
    (hp : p.length ≤ maxPlaintext) (h0 : hashSubkey key = 0) (i : Nat) (b : Byte)
    (hi : 12 ≤ i) (hi2 : i < 12 + p.length)
    (hb : (n ++ sealed (gcmOf key) n p)[i]? ≠ some b) :
    ∃ q, q ≠ p ∧ Decrypt a (EncodeToString ((n ++ sealed (gcmOf key) n p).set i b)) = .ok q := by
  have hb2 := hb
  rw [payload_get key p n hn i hi] at hb2
  obtain ⟨q, hq, hopen⟩ :=
    Open_changed_zero_subkey (gcmOf key) n p (i - 12) b hn hp h0 (by omega) hb2
  refine ⟨q, hq, ?_⟩
  rw [Decrypt, hk]
  apply decryptLoop_hit a _ key rest q _ [] none (by simp)
  rw [payload_set key p n hn i b hi, decrypt_payload a key n _ hn]
  exact hopen

theorem hashSubkeyA_eq : hashSubkey keyA = hashSubkeyA := by decide!

/-- Witness of claim C9: five bytes under the manager of `[keyA]` alone, whose hash subkey
is not zero; every change of one byte after the nonce makes `Decrypt` return an error. -/
theorem C9_witness :
    ∃ s raw, Encrypt managerA (bytesOf "hello") (.ok nonceA) = .ok s ∧
      DecodeString s = .ok raw ∧ raw.length = 12 + 5 + 16 ∧
      ∀ (i : Nat) (b : Byte), 12 ≤ i → i < raw.length → raw[i]? ≠ some b →
        ∃ e, Decrypt managerA (EncodeToString (raw.set i b)) = .err e := by
  obtain ⟨s, raw, hs, hraw, hlen, h⟩ := C9_change_rejected_by_sealing_key managerA keyA []
    (bytesOf "hello") nonceA rfl (by decide) (by decide)
  have hne : hashSubkey keyA ≠ 0 := by
    rw [hashSubkeyA_eq]
    decide
  exact ⟨s, raw, hs, hraw, hlen, fun i b hi hi2 hb =>
    (h i b hi hi2 hb (Or.inr hne)).2 (by simp)⟩

/-- Counterexample to claim C9 as stated: the manager of `[keyA, keyB]` encrypts `plainTamper`
with `nonceA` to the encoding of `rawTamper`; after the last byte of the payload is changed from
182 to 183, `Decrypt` returns, without error, the different plaintext `otherTamper`, because
the attempt with `keyB` accepts the changed tag. -/
theorem C9_counterexample :
    NewAESGCM [keyA.val, keyB.val] = .ok managerAB ∧
      Encrypt managerAB plainTamper (.ok nonceA) = .ok (EncodeToString rawTamper) ∧
      DecodeString (EncodeToString rawTamper) = .ok rawTamper ∧
      rawTamper[43]? = some 182 ∧
      Decrypt managerAB (EncodeToString (rawTamper.set 43 183)) = .ok otherTamper ∧
      otherTamper ≠ plainTamper := by
  refine ⟨by decide, by decide!, DecodeString_EncodeToString _, by decide, by decide!,
    by decide⟩

end aes_gcm
